import Mathlib

/-!
Verification of the meethere aggregation-and-optimization engine
(`src/unnamed/part_006`, the meetings route module; `src/server/routes/meetings.js`
holds an older copy whose `calculateOptimalTime` returns a single slot — the
range-based aggregator verified here is the one in `part_006`).

Conventions of the shallow embedding:
* A `TimeSlot` is a pair `(dayIndex, timeIndex)` of naturals (the spec's data
  model declares both indices non-negative).  The JS tally keyed by the string
  `dayIndex ++ "-" ++ timeIndex` is modelled as a tally keyed by the pair
  itself; for non-negative integers the string key is in bijection with the
  pair.  JS `Object.entries` iterates keys in first-insertion order; we
  enumerate the distinct slots with `List.dedup` instead, which is a
  permutation of that order.  All observable outputs of the aggregator are
  invariant under this permutation because both candidate pools are sorted
  before being grouped.
* JS numbers used by the location ranker are modelled as real numbers; the
  catalog's decimal literals are rationals coerced into `ℝ`.
* `Array.prototype.sort` (stable since ES2019) with comparator
  `(a, b) => a.avgDistance - b.avgDistance` is modelled as the stable
  `List.mergeSort` with the corresponding boolean `≤` test.
* `Math.round` (round half towards positive infinity) is `fun x => ⌊x + 1/2⌋`.
* Fallible behaviour: the engine never throws; `calculateOptimalTime` returns
  `null` for the empty outcomes, modelled as `Option`.
-/

/-! ### Time aggregator (part_006 lines 271-392) -/

/-- A participant-marked slot `(dayIndex, timeIndex)`. -/
abbrev TimeSlot := ℕ × ℕ

/-- A tallied slot, as built inside `calculateOptimalTime`:
`{ dayIndex, timeIndex, participantCount, everyoneAvailable }`. -/
structure ScoredSlot where
  dayIndex : ℕ
  timeIndex : ℕ
  participantCount : ℕ
  everyoneAvailable : Bool
deriving DecidableEq, Repr

/-- A grouped contiguous range, as built by `groupConsecutiveSlots`. -/
structure TimeRange where
  dayIndex : ℕ
  startTimeIndex : ℕ
  endTimeIndex : ℕ
  participantCount : ℕ
  everyoneAvailable : Bool
deriving DecidableEq, Repr

/-- The JS sort comparator
`(a, b) => a.dayIndex !== b.dayIndex ? a.dayIndex - b.dayIndex : a.timeIndex - b.timeIndex`,
i.e. ascending lexicographic order on `(dayIndex, timeIndex)`. -/
def slotLE (a b : ScoredSlot) : Bool :=
  decide (a.dayIndex < b.dayIndex) ||
    (decide (a.dayIndex = b.dayIndex) && decide (a.timeIndex ≤ b.timeIndex))

/-- The group opened from a single slot (`currentGroup` initialisation). -/
def openRange (s : ScoredSlot) : TimeRange :=
  ⟨s.dayIndex, s.timeIndex, s.timeIndex, s.participantCount, s.everyoneAvailable⟩

/-- The `for` loop of `groupConsecutiveSlots`: `cur` is the open
`currentGroup`; a slot on the same day whose `timeIndex` is
`currentGroup.endTimeIndex + 1` extends the group, any other slot closes the
group and opens a new one; the last group is emitted at the end.  Closed
groups are emitted in the same order as the JS `grouped` array. -/
def groupGo (cur : TimeRange) : List ScoredSlot → List TimeRange
  | [] => [cur]
  | s :: rest =>
    if s.dayIndex = cur.dayIndex ∧ s.timeIndex = cur.endTimeIndex + 1 then
      groupGo { cur with endTimeIndex := s.timeIndex } rest
    else
      cur :: groupGo (openRange s) rest

/-- `groupConsecutiveSlots` (part_006 lines 271-313): sort by
`(dayIndex, timeIndex)`, then merge consecutive same-day slots. -/
def groupConsecutiveSlots (slots : List ScoredSlot) : List TimeRange :=
  match slots.mergeSort slotLE with
  | [] => []
  | s :: rest => groupGo (openRange s) rest

/-- State of the slot-classification loop in `calculateOptimalTime`:
`perfectSlots`, `bestAlternativeSlots` and `maxCount`. -/
structure AggState where
  perfectSlots : List ScoredSlot
  bestAlternativeSlots : List ScoredSlot
  maxCount : ℕ
deriving Repr

/-- One iteration of the `for (const [key, count] of Object.entries(...))`
loop body of `calculateOptimalTime`. -/
def tallyStep (total : ℕ) (st : AggState) (e : TimeSlot × ℕ) : AggState :=
  if e.2 = total then
    { st with perfectSlots := st.perfectSlots ++ [⟨e.1.1, e.1.2, e.2, true⟩] }
  else if st.maxCount < e.2 then
    { st with bestAlternativeSlots := [⟨e.1.1, e.1.2, e.2, false⟩], maxCount := e.2 }
  else if e.2 = st.maxCount then
    { st with bestAlternativeSlots := st.bestAlternativeSlots ++ [⟨e.1.1, e.1.2, e.2, false⟩] }
  else st

/-- The entries of the `timeSlotCounts` tally: each distinct marked slot
paired with the number of availability entries naming it.  (JS iterates the
keys in first-insertion order; see the header note.) -/
def scoredEntries (ps : List (List TimeSlot)) : List (TimeSlot × ℕ) :=
  (ps.flatten.dedup).map fun s => (s, ps.flatten.countP fun t => decide (t = s))

/-- The object returned by `calculateOptimalTime`:
`{ slots, everyoneAvailable, message }`. -/
structure TimeRecommendation where
  slots : List TimeRange
  everyoneAvailable : Bool
  message : String
deriving DecidableEq, Repr

/-- `calculateOptimalTime` (part_006 lines 316-392).  A participant is
represented by its availability list; the participant count is the list
length. -/
def calculateOptimalTime (ps : List (List TimeSlot)) : Option TimeRecommendation :=
  if ps.length = 0 then none
  else
    let totalParticipants := ps.length
    let st := (scoredEntries ps).foldl (tallyStep totalParticipants) ⟨[], [], 0⟩
    let groupedPerfectSlots := groupConsecutiveSlots st.perfectSlots
    let groupedBestAlternativeSlots := groupConsecutiveSlots st.bestAlternativeSlots
    if 0 < groupedPerfectSlots.length then
      some ⟨groupedPerfectSlots, true,
        toString groupedPerfectSlots.length ++ " time range" ++
          (if 1 < groupedPerfectSlots.length then "s" else "") ++
          " where everyone is available"⟩
    else if 0 < groupedBestAlternativeSlots.length then
      some ⟨groupedBestAlternativeSlots, false,
        "Best option: " ++ toString st.maxCount ++ " out of " ++
          toString totalParticipants ++ " participants available"⟩
    else none

/-! ### Location ranker (part_006 lines 425-577) -/

/-- A participant or creator coordinate pair `{ lat, lng }`. -/
structure Coordinates where
  lat : ℝ
  lng : ℝ

/-- A catalog entry `{ id, name, abbr, lat, lng }`.  The catalog's decimal
literals are exact rationals; they are coerced to `ℝ` where used. -/
structure Building where
  id : ℕ
  name : String
  abbr : String
  lat : ℚ
  lng : ℚ
deriving DecidableEq, Repr

/-- The static `campusBuildings` catalog (57 entries, part_006 lines 442-525). -/
def campusBuildings : List Building := [
  ⟨1, "Lawson Computer Science Building", "LWSN", 40.42833, -86.91620⟩,
  ⟨2, "Wilmeth Active Learning Center", "WALC", 40.42600, -86.91300⟩,
  ⟨3, "Mathematical Sciences Building", "MATH", 40.42500, -86.91500⟩,
  ⟨4, "Electrical Engineering Building", "EE", 40.42670, -86.91620⟩,
  ⟨5, "Felix Haas Hall", "HAAS", 40.42540, -86.91540⟩,
  ⟨6, "Recitation Building", "REC", 40.42540, -86.91540⟩,
  ⟨7, "Stanley Coulter Hall", "SC", 40.42540, -86.91540⟩,
  ⟨8, "Physics Building", "PHYS", 40.42670, -86.91460⟩,
  ⟨9, "Lilly Hall of Life Sciences", "LILY", 40.42360, -86.91700⟩,
  ⟨10, "Class of 1950 Lecture Hall", "CL50", 40.42540, -86.91540⟩,
  ⟨11, "Neil Armstrong Hall of Engineering", "ARMS", 40.43100, -86.91450⟩,
  ⟨12, "Grissom Hall", "GRIS", 40.42670, -86.91620⟩,
  ⟨13, "Mechanical Engineering Building", "ME", 40.42670, -86.91620⟩,
  ⟨14, "Materials and Electrical Engineering Building", "MSEE", 40.42790, -86.91540⟩,
  ⟨15, "Civil Engineering Building", "CIVL", 40.42670, -86.91460⟩,
  ⟨16, "Chaffee Hall", "CHAF", 40.41510, -86.92080⟩,
  ⟨17, "Hicks Undergraduate Library", "HICKS", 40.42540, -86.91780⟩,
  ⟨18, "Humanities Social Sciences and Education Library", "HSSE", 40.42600, -86.91300⟩,
  ⟨19, "Mathematical Sciences Library", "MLIB", 40.42500, -86.91500⟩,
  ⟨20, "Memorial Union", "PMU", 40.42480, -86.91100⟩,
  ⟨21, "Stewart Center", "STEW", 40.42600, -86.91300⟩,
  ⟨22, "Cordova Recreational Sports Center", "CoRec", 40.42920, -86.92030⟩,
  ⟨23, "Krannert Building", "KRAN", 40.42540, -86.91860⟩,
  ⟨24, "Rawls Hall", "RAWL", 40.42540, -86.91860⟩,
  ⟨25, "Krach Leadership Center", "KRCH", 40.42920, -86.92030⟩,
  ⟨26, "Wetherill Laboratory of Chemistry", "WTHR", 40.42540, -86.91540⟩,
  ⟨27, "Brown Laboratory", "BRNG", 40.42540, -86.91540⟩,
  ⟨28, "Biochemistry Building", "BCHM", 40.42360, -86.91780⟩,
  ⟨29, "Hansen Life Sciences Research Building", "HANS", 40.42360, -86.91860⟩,
  ⟨30, "Smith Hall", "SMTH", 40.42410, -86.91860⟩,
  ⟨31, "Pfendler Hall", "PFEN", 40.42410, -86.91860⟩,
  ⟨32, "Agricultural Administration Building", "AGAD", 40.42410, -86.91860⟩,
  ⟨33, "Yue-Kong Pao Hall of Visual and Performing Arts", "PAO", 40.42670, -86.91380⟩,
  ⟨34, "Patti and Rusty Rueff Hall", "PRUF", 40.42670, -86.91380⟩,
  ⟨35, "Elliott Hall of Music", "ELLT", 40.42790, -86.91490⟩,
  ⟨36, "Peirce Hall", "PRCE", 40.42540, -86.91540⟩,
  ⟨37, "Earhart Hall", "EAR", 40.43180, -86.92510⟩,
  ⟨38, "First Street Towers", "FST", 40.43180, -86.92510⟩,
  ⟨39, "Hillenbrand Hall", "HILL", 40.43430, -86.92510⟩,
  ⟨40, "Harrison Hall", "HARR", 40.43430, -86.92510⟩,
  ⟨41, "Tarkington Hall", "TARK", 40.43050, -86.92240⟩,
  ⟨42, "Wiley Hall", "WILY", 40.43050, -86.92160⟩,
  ⟨43, "Windsor Halls", "WNDS", 40.42920, -86.92030⟩,
  ⟨44, "Hawkins Hall", "HAWK", 40.42540, -86.91860⟩,
  ⟨45, "Hovde Hall", "HOVD", 40.42670, -86.91460⟩,
  ⟨46, "Schleman Hall", "SCHL", 40.42670, -86.91460⟩,
  ⟨47, "Young Hall", "YONG", 40.42540, -86.91860⟩,
  ⟨48, "Mackey Arena", "MACK", 40.43330, -86.91610⟩,
  ⟨49, "Ross-Ade Stadium", "ROSS", 40.43560, -86.92320⟩,
  ⟨50, "Mollenkopf Athletic Center", "MAC", 40.43560, -86.92320⟩,
  ⟨51, "Knoy Hall", "KNOY", 40.42670, -86.91620⟩,
  ⟨52, "University Hall", "UNIV", 40.42540, -86.91540⟩,
  ⟨53, "Beering Hall", "BEER", 40.42540, -86.91540⟩,
  ⟨54, "Heavilon Hall", "HEAV", 40.42540, -86.91540⟩,
  ⟨55, "Stone Hall", "STON", 40.42410, -86.91860⟩,
  ⟨56, "Pharmacy Building", "PHAR", 40.42790, -86.91380⟩,
  ⟨57, "Nursing Building", "NURS", 40.42790, -86.91380⟩
]

/-- JS `Math.round`: round half towards positive infinity. -/
noncomputable def jsRound (x : ℝ) : ℤ := ⌊x + 1 / 2⌋

/-- JS `Math.atan2 y x` on real arguments. -/
noncomputable def atan2 (y x : ℝ) : ℝ :=
  if 0 < x then Real.arctan (y / x)
  else if x < 0 then
    if 0 ≤ y then Real.arctan (y / x) + Real.pi else Real.arctan (y / x) - Real.pi
  else
    if 0 < y then Real.pi / 2 else if y < 0 then -(Real.pi / 2) else 0

/-- `calculateDistance` (part_006 lines 425-438): the Haversine great-circle
distance with Earth radius `6371e3` metres. -/
noncomputable def calculateDistance (lat1 lng1 lat2 lng2 : ℝ) : ℝ :=
  let R : ℝ := 6371000
  let phi1 := lat1 * Real.pi / 180
  let phi2 := lat2 * Real.pi / 180
  let dphi := (lat2 - lat1) * Real.pi / 180
  let dlng := (lng2 - lng1) * Real.pi / 180
  let a := Real.sin (dphi / 2) * Real.sin (dphi / 2) +
    Real.cos phi1 * Real.cos phi2 * (Real.sin (dlng / 2) * Real.sin (dlng / 2))
  let c := 2 * atan2 (Real.sqrt a) (Real.sqrt (1 - a))
  R * c

/-- A participant as seen by the location ranker: an optional
`location.coordinates`. -/
structure LocParticipant where
  location : Option Coordinates

/-- The meeting record as seen by the location ranker: an optional
`creatorLocation.coordinates`. -/
structure MeetingRecord where
  creatorLocation : Option Coordinates

/-- The `participantLocations` array: the creator's coordinates if present,
followed by the coordinates of each participant that has one. -/
def participantLocations (participants : List LocParticipant)
    (meeting : MeetingRecord) : List Coordinates :=
  (match meeting.creatorLocation with
   | some c => [c]
   | none => []) ++ participants.filterMap (fun p => p.location)

/-- The `totalDistance` accumulator of the `forEach` over
`participantLocations` (starts at `0`, adds each distance in order). -/
noncomputable def rawTotalDistance (locs : List Coordinates) (b : Building) : ℝ :=
  (locs.map fun p => calculateDistance (b.lat : ℝ) (b.lng : ℝ) p.lat p.lng).foldl (· + ·) 0

/-- The `maxDistance` accumulator (starts at `0`, takes `Math.max` with each
distance in order). -/
noncomputable def rawMaxDistance (locs : List Coordinates) (b : Building) : ℝ :=
  (locs.map fun p => calculateDistance (b.lat : ℝ) (b.lng : ℝ) p.lat p.lng).foldl max 0

/-- The object produced for one building by the `campusBuildings.map`:
the spread building plus the four rounded distance fields. -/
structure ScoredBuilding where
  id : ℕ
  name : String
  abbr : String
  lat : ℚ
  lng : ℚ
  avgDistance : ℤ
  maxDistance : ℤ
  totalDistance : ℤ
  fairnessScore : ℤ
deriving DecidableEq, Repr

/-- The body of the `campusBuildings.map` (part_006 lines 547-569):
`avgDistance = totalDistance / participantLocations.length`, every exposed
distance field is `Math.round`ed, and `fairnessScore` is
`Math.round(maxDistance - avgDistance)` computed from the raw values. -/
noncomputable def scoreBuilding (locs : List Coordinates) (b : Building) : ScoredBuilding :=
  let totalDistance := rawTotalDistance locs b
  let maxDistance := rawMaxDistance locs b
  let avgDistance := totalDistance / (locs.length : ℝ)
  { id := b.id, name := b.name, abbr := b.abbr, lat := b.lat, lng := b.lng,
    avgDistance := jsRound avgDistance,
    maxDistance := jsRound maxDistance,
    totalDistance := jsRound totalDistance,
    fairnessScore := jsRound (maxDistance - avgDistance) }

/-- The sort comparator `(a, b) => a.avgDistance - b.avgDistance`. -/
def scoreLE (a b : ScoredBuilding) : Bool := decide (a.avgDistance ≤ b.avgDistance)

/-- `findOptimalLocations` (part_006 lines 441-577): score every catalog
building against the collected locations, sort ascending by the rounded
average distance (stable sort) and return the first five. -/
noncomputable def findOptimalLocations (participants : List LocParticipant)
    (meeting : MeetingRecord) : List ScoredBuilding :=
  let locs := participantLocations participants meeting
  if locs.length = 0 then []
  else
    let buildingScores := campusBuildings.map (scoreBuilding locs)
    (buildingScores.mergeSort scoreLE).take 5

/-! ### Verification-layer definitions -/

/-- The best-alternative slot built from a tally entry. -/
def mkAlt (e : TimeSlot × ℕ) : ScoredSlot := ⟨e.1.1, e.1.2, e.2, false⟩

/-- Brute-force recount: the number of participants whose availability
contains the slot `s`. -/
def numAvail (ps : List (List TimeSlot)) (s : TimeSlot) : ℕ :=
  ps.countP fun l => decide (s ∈ l)

/-- The true maximum overlap: the largest number of participants sharing any
single marked slot. -/
def maxOverlap (ps : List (List TimeSlot)) : ℕ :=
  ((ps.flatten.dedup).map (numAvail ps)).foldr max 0

/-- The haversine `a` value computed inside `calculateDistance`. -/
noncomputable def havA (lat1 lng1 lat2 lng2 : ℝ) : ℝ :=
  Real.sin ((lat2 - lat1) * Real.pi / 180 / 2) *
      Real.sin ((lat2 - lat1) * Real.pi / 180 / 2) +
    Real.cos (lat1 * Real.pi / 180) * Real.cos (lat2 * Real.pi / 180) *
      (Real.sin ((lng2 - lng1) * Real.pi / 180 / 2) *
        Real.sin ((lng2 - lng1) * Real.pi / 180 / 2))

/-- Counterexample participant 1: exactly at the catalog's first building
(LWSN). -/
noncomputable def cexP1 : Coordinates := ⟨((40.42833 : ℚ) : ℝ), ((-86.91620 : ℚ) : ℝ)⟩

/-- Counterexample participant 2: the exact antipode of `cexP1`. -/
noncomputable def cexP2 : Coordinates :=
  ⟨-((40.42833 : ℚ) : ℝ), ((-86.91620 : ℚ) : ℝ) + 180⟩

/-- The collected location list of the counterexample input. -/
noncomputable def cexLocs : List Coordinates := [cexP1, cexP2]

/-- The catalog's first building. -/
def cexLWSN : Building :=
  ⟨1, "Lawson Computer Science Building", "LWSN", 40.42833, -86.91620⟩

/-! ### Lemmas about contiguous-range grouping -/

/-- The `(dayIndex, timeIndex)` key of a tallied slot. -/
def slotKey (s : ScoredSlot) : ℕ × ℕ := (s.dayIndex, s.timeIndex)

/-- A range covers the slot `(d, t)`: same day, `t` inside the inclusive
time-index interval. -/
def coversRange (r : TimeRange) (d t : ℕ) : Prop :=
  r.dayIndex = d ∧ r.startTimeIndex ≤ t ∧ t ≤ r.endTimeIndex

instance (r : TimeRange) (d t : ℕ) : Decidable (coversRange r d t) := by
  unfold coversRange; infer_instance

/-- Strict lexicographic order on slot keys. -/
def keyLT (a b : ℕ × ℕ) : Prop := a.1 < b.1 ∨ (a.1 = b.1 ∧ a.2 < b.2)

/-- Weak lexicographic order on slot keys. -/
def keyLE (a b : ℕ × ℕ) : Prop := a.1 < b.1 ∨ (a.1 = b.1 ∧ a.2 ≤ b.2)

/-- One range ends strictly before the other starts (same-day) or is on an
earlier day. -/
def rangeLT (r1 r2 : TimeRange) : Prop :=
  r1.dayIndex < r2.dayIndex ∨
    (r1.dayIndex = r2.dayIndex ∧ r1.endTimeIndex < r2.startTimeIndex)

theorem keyLE_trans {a b c : ℕ × ℕ} (h1 : keyLE a b) (h2 : keyLE b c) : keyLE a c := by
  unfold keyLE at *; omega

theorem keyLT_keyLE_trans {a b c : ℕ × ℕ} (h1 : keyLT a b) (h2 : keyLE b c) : keyLT a c := by
  unfold keyLT keyLE at *; omega

theorem keyLE_keyLT_trans {a b c : ℕ × ℕ} (h1 : keyLE a b) (h2 : keyLT b c) : keyLT a c := by
  unfold keyLE keyLT at *; omega

/-- Every run of `groupGo` produces a non-empty list whose head keeps the
day and start index of the open group. -/
theorem groupGo_head (cur : TimeRange) (rest : List ScoredSlot) :
    ∃ r tl, groupGo cur rest = r :: tl ∧
      r.dayIndex = cur.dayIndex ∧ r.startTimeIndex = cur.startTimeIndex := by
  induction rest generalizing cur with
  | nil => exact ⟨cur, [], rfl, rfl, rfl⟩
  | cons s rest ih =>
    by_cases h : s.dayIndex = cur.dayIndex ∧ s.timeIndex = cur.endTimeIndex + 1
    · obtain ⟨r, tl, heq, hd, hs⟩ := ih { cur with endTimeIndex := s.timeIndex }
      exact ⟨r, tl, by simpa [groupGo, h] using heq, hd, hs⟩
    · obtain ⟨r, tl, heq, hd, hs⟩ := ih (openRange s)
      exact ⟨cur, groupGo (openRange s) rest, by simp [groupGo, h], rfl, rfl⟩

theorem groupGo_ne_nil (cur : TimeRange) (rest : List ScoredSlot) :
    groupGo cur rest ≠ [] := by
  obtain ⟨r, tl, heq, -, -⟩ := groupGo_head cur rest
  simp [heq]

/-- Any property of `(participantCount, everyoneAvailable)` held by the open
group and all remaining slots is held by every produced range. -/
theorem groupGo_pred (P : ℕ → Bool → Prop) (cur : TimeRange) (rest : List ScoredSlot)
    (hc : P cur.participantCount cur.everyoneAvailable)
    (hr : ∀ s ∈ rest, P s.participantCount s.everyoneAvailable) :
    ∀ r ∈ groupGo cur rest, P r.participantCount r.everyoneAvailable := by
  induction rest generalizing cur with
  | nil => simpa [groupGo] using hc
  | cons s rest ih =>
    by_cases h : s.dayIndex = cur.dayIndex ∧ s.timeIndex = cur.endTimeIndex + 1
    · simp only [groupGo, if_pos h]
      exact ih _ hc fun u hu => hr u (List.mem_cons_of_mem _ hu)
    · simp only [groupGo, if_neg h]
      intro r hm
      rcases List.mem_cons.1 hm with rfl | hm
      · exact hc
      · exact ih (openRange s) (hr s (List.mem_cons_self ..)) 
          (fun u hu => hr u (List.mem_cons_of_mem _ hu)) r hm

/-- Every slot position inside the open group's interval, and every remaining
slot, is covered by some produced range. -/
theorem groupGo_covers (cur : TimeRange) (rest : List ScoredSlot)
    (hse : cur.startTimeIndex ≤ cur.endTimeIndex) (d t : ℕ)
    (h : (d = cur.dayIndex ∧ cur.startTimeIndex ≤ t ∧ t ≤ cur.endTimeIndex) ∨
         ∃ s ∈ rest, s.dayIndex = d ∧ s.timeIndex = t) :
    ∃ r ∈ groupGo cur rest, coversRange r d t := by
  induction rest generalizing cur with
  | nil =>
    rcases h with ⟨hd, h1, h2⟩ | ⟨s, hs, _⟩
    · exact ⟨cur, by simp [groupGo], hd.symm, h1, h2⟩
    · simp at hs
  | cons s rest ih =>
    by_cases hm : s.dayIndex = cur.dayIndex ∧ s.timeIndex = cur.endTimeIndex + 1
    · simp only [groupGo, if_pos hm]
      apply ih _ (by simp; omega)
      rcases h with ⟨hd, h1, h2⟩ | ⟨u, hu, hk⟩
      · exact Or.inl ⟨hd, h1, by simp; omega⟩
      · rcases List.mem_cons.1 hu with heq | hu
        · subst heq
          exact Or.inl ⟨by rw [← hk.1, hm.1], by simp [← hk.2, hm.2]; omega, by simp [← hk.2, hm.2]⟩
        · exact Or.inr ⟨u, hu, hk⟩
    · simp only [groupGo, if_neg hm]
      rcases h with ⟨hd, h1, h2⟩ | ⟨u, hu, hk⟩
      · exact ⟨cur, List.mem_cons_self .., hd.symm, h1, h2⟩
      · rcases List.mem_cons.1 hu with heq | hu
        · subst heq
          obtain ⟨r, hr, hc⟩ := ih (openRange u) (le_refl _)
            (Or.inl ⟨hk.1.symm, by simp [openRange, hk.2], by simp [openRange, hk.2]⟩)
          exact ⟨r, List.mem_cons_of_mem _ hr, hc⟩
        · obtain ⟨r, hr, hc⟩ := ih (openRange s) (le_refl _) (Or.inr ⟨u, hu, hk⟩)
          exact ⟨r, List.mem_cons_of_mem _ hr, hc⟩

/-- Sound coverage: if every position of the open group's interval and every
remaining slot key satisfies `K`, so does every position of every produced
range. -/
theorem groupGo_sound (K : ℕ → ℕ → Prop) (cur : TimeRange) (rest : List ScoredSlot)
    (hc : ∀ t, cur.startTimeIndex ≤ t → t ≤ cur.endTimeIndex → K cur.dayIndex t)
    (hr : ∀ s ∈ rest, K s.dayIndex s.timeIndex) :
    ∀ r ∈ groupGo cur rest, ∀ t, r.startTimeIndex ≤ t → t ≤ r.endTimeIndex →
      K r.dayIndex t := by
  induction rest generalizing cur with
  | nil =>
    intro r hm
    simp only [groupGo, List.mem_singleton] at hm
    subst hm; exact hc
  | cons s rest ih =>
    by_cases hm : s.dayIndex = cur.dayIndex ∧ s.timeIndex = cur.endTimeIndex + 1
    · simp only [groupGo, if_pos hm]
      apply ih
      · intro t h1 h2
        simp only at h1 h2 ⊢
        rcases Nat.lt_or_ge t (cur.endTimeIndex + 1) with hlt | hge
        · exact hc t h1 (by omega)
        · have : t = s.timeIndex := by omega
          subst this
          have := hr s (List.mem_cons_self ..)
          rwa [hm.1] at this
      · exact fun u hu => hr u (List.mem_cons_of_mem _ hu)
    · simp only [groupGo, if_neg hm]
      intro r hmem
      rcases List.mem_cons.1 hmem with heq | hmem
      · subst heq; exact hc
      · exact ih (openRange s)
          (fun t h1 h2 => by
            simp only [openRange] at h1 h2
            have : t = s.timeIndex := le_antisymm h2 h1
            subst this
            exact hr s (List.mem_cons_self ..))
          (fun u hu => hr u (List.mem_cons_of_mem _ hu)) r hmem

/-- Every produced range has `startTimeIndex ≤ endTimeIndex`. -/
theorem groupGo_start_le_end (cur : TimeRange) (rest : List ScoredSlot)
    (hse : cur.startTimeIndex ≤ cur.endTimeIndex) :
    ∀ r ∈ groupGo cur rest, r.startTimeIndex ≤ r.endTimeIndex := by
  induction rest generalizing cur with
  | nil =>
    intro r hm
    simp only [groupGo, List.mem_singleton] at hm
    subst hm; exact hse
  | cons s rest ih =>
    by_cases hm : s.dayIndex = cur.dayIndex ∧ s.timeIndex = cur.endTimeIndex + 1
    · simp only [groupGo, if_pos hm]
      exact ih _ (by simp; omega)
    · simp only [groupGo, if_neg hm]
      intro r hmem
      rcases List.mem_cons.1 hmem with heq | hmem
      · subst heq; exact hse
      · exact ih (openRange s) (le_refl _) r hmem

/-- Every produced range starts at or after the open group's start key. -/
theorem groupGo_lower (cur : TimeRange) (rest : List ScoredSlot)
    (hse : cur.startTimeIndex ≤ cur.endTimeIndex)
    (hafter : ∀ s ∈ rest, keyLT (cur.dayIndex, cur.endTimeIndex) (slotKey s))
    (hsorted : rest.Pairwise fun a b => keyLT (slotKey a) (slotKey b)) :
    ∀ r ∈ groupGo cur rest,
      keyLE (cur.dayIndex, cur.startTimeIndex) (r.dayIndex, r.startTimeIndex) := by
  induction rest generalizing cur with
  | nil =>
    intro r hm
    simp only [groupGo, List.mem_singleton] at hm
    subst hm
    exact Or.inr ⟨rfl, le_refl _⟩
  | cons s rest ih =>
    have hs_after := hafter s (List.mem_cons_self ..)
    have hafter' : ∀ u ∈ rest, keyLT (slotKey s) (slotKey u) :=
      fun u hu => List.rel_of_pairwise_cons hsorted hu
    by_cases hm : s.dayIndex = cur.dayIndex ∧ s.timeIndex = cur.endTimeIndex + 1
    · simp only [groupGo, if_pos hm]
      intro r hr
      apply ih { cur with endTimeIndex := s.timeIndex } (by simp; omega) _
        (hsorted.sublist (List.sublist_cons_self ..)) r hr
      intro u hu
      have := hafter' u hu
      simp only [slotKey] at this ⊢
      rw [hm.1] at this
      exact this
    · simp only [groupGo, if_neg hm]
      intro r hmem
      rcases List.mem_cons.1 hmem with heq | hmem
      · subst heq; exact Or.inr ⟨rfl, le_refl _⟩
      · have hrec := ih (openRange s) (le_refl _)
          (fun u hu => by
            have := hafter' u hu
            simpa [openRange, slotKey] using this)
          (hsorted.sublist (List.sublist_cons_self ..)) r hmem
        simp only [openRange] at hrec
        have hlt : keyLT (cur.dayIndex, cur.endTimeIndex) (r.dayIndex, r.startTimeIndex) :=
          keyLT_keyLE_trans (by simpa [slotKey] using hs_after) hrec
        unfold keyLT keyLE at *
        simp only at hlt ⊢
        omega

/-- Produced ranges are strictly separated, in emission order. -/
theorem groupGo_pairwise (cur : TimeRange) (rest : List ScoredSlot)
    (hse : cur.startTimeIndex ≤ cur.endTimeIndex)
    (hafter : ∀ s ∈ rest, keyLT (cur.dayIndex, cur.endTimeIndex) (slotKey s))
    (hsorted : rest.Pairwise fun a b => keyLT (slotKey a) (slotKey b)) :
    (groupGo cur rest).Pairwise rangeLT := by
  induction rest generalizing cur with
  | nil => simp [groupGo]
  | cons s rest ih =>
    have hs_after := hafter s (List.mem_cons_self ..)
    have hafter' : ∀ u ∈ rest, keyLT (slotKey s) (slotKey u) :=
      fun u hu => List.rel_of_pairwise_cons hsorted hu
    by_cases hm : s.dayIndex = cur.dayIndex ∧ s.timeIndex = cur.endTimeIndex + 1
    · simp only [groupGo, if_pos hm]
      apply ih { cur with endTimeIndex := s.timeIndex } (by simp; omega) _
        (hsorted.sublist (List.sublist_cons_self ..))
      intro u hu
      have := hafter' u hu
      simp only [slotKey] at this ⊢
      rw [hm.1] at this
      exact this
    · simp only [groupGo, if_neg hm]
      refine List.pairwise_cons.2 ⟨?_, ?_⟩
      · intro r hr
        have hrec := groupGo_lower (openRange s) rest (le_refl _)
          (fun u hu => by simpa [openRange, slotKey] using hafter' u hu)
          (hsorted.sublist (List.sublist_cons_self ..)) r hr
        simp only [openRange] at hrec
        have hlt : keyLT (cur.dayIndex, cur.endTimeIndex) (r.dayIndex, r.startTimeIndex) :=
          keyLT_keyLE_trans (by simpa [slotKey] using hs_after) hrec
        unfold keyLT at hlt
        unfold rangeLT
        simp only at hlt ⊢
        omega
      · exact ih (openRange s) (le_refl _)
          (fun u hu => by simpa [openRange, slotKey] using hafter' u hu)
          (hsorted.sublist (List.sublist_cons_self ..))

/-- No two adjacent produced ranges are mergeable: a closed group is never
followed by a same-day range starting exactly one index after its end. -/
theorem groupGo_chain (cur : TimeRange) (rest : List ScoredSlot) :
    (groupGo cur rest).Chain' fun r1 r2 =>
      ¬(r1.dayIndex = r2.dayIndex ∧ r2.startTimeIndex = r1.endTimeIndex + 1) := by
  induction rest generalizing cur with
  | nil => simp [groupGo]
  | cons s rest ih =>
    by_cases hm : s.dayIndex = cur.dayIndex ∧ s.timeIndex = cur.endTimeIndex + 1
    · simp only [groupGo, if_pos hm]
      exact ih _
    · simp only [groupGo, if_neg hm]
      obtain ⟨r0, tl, heq, hd, hs⟩ := groupGo_head (openRange s) rest
      rw [heq]
      refine List.chain'_cons.2 ⟨?_, by rw [← heq]; exact ih (openRange s)⟩
      simp only [openRange] at hd hs
      intro hcontra
      exact hm ⟨by rw [← hd, hcontra.1], by rw [← hs, hcontra.2]⟩

theorem slotLE_trans : ∀ (a b c : ScoredSlot),
    slotLE a b = true → slotLE b c = true → slotLE a c = true := by
  intro a b c h1 h2
  simp only [slotLE, Bool.or_eq_true, Bool.and_eq_true, decide_eq_true_eq] at *
  omega

theorem slotLE_total : ∀ (a b : ScoredSlot), (slotLE a b || slotLE b a) = true := by
  intro a b
  simp only [slotLE, Bool.or_eq_true, Bool.and_eq_true, decide_eq_true_eq]
  omega

/-- The sorted slot list of `groupConsecutiveSlots`. -/
theorem sorted_slotLE (slots : List ScoredSlot) :
    (slots.mergeSort slotLE).Pairwise fun a b => slotLE a b = true :=
  List.sorted_mergeSort slotLE_trans slotLE_total slots

/-- On a list with pairwise-distinct keys, the sort order is strict. -/
theorem pairwise_keyLT_of_nodup (l : List ScoredSlot)
    (hs : l.Pairwise fun a b => slotLE a b = true)
    (hnd : (l.map slotKey).Nodup) :
    l.Pairwise fun a b => keyLT (slotKey a) (slotKey b) := by
  have h2 : l.Pairwise fun a b => slotKey a ≠ slotKey b := List.pairwise_map.1 hnd
  refine (hs.and h2).imp ?_
  intro a b ⟨h1, hne⟩
  simp only [slotLE, Bool.or_eq_true, Bool.and_eq_true, decide_eq_true_eq] at h1
  have : ¬(a.dayIndex = b.dayIndex ∧ a.timeIndex = b.timeIndex) := by
    intro ⟨u, v⟩; exact hne (by simp [slotKey, u, v])
  unfold keyLT slotKey
  simp only
  omega

theorem groupConsecutiveSlots_nil : groupConsecutiveSlots [] = [] := by
  simp [groupConsecutiveSlots, List.mergeSort_nil]

theorem groupConsecutiveSlots_ne_nil (slots : List ScoredSlot) (h : slots ≠ []) :
    groupConsecutiveSlots slots ≠ [] := by
  unfold groupConsecutiveSlots
  rcases hms : slots.mergeSort slotLE with _ | ⟨s, rest⟩
  · exact absurd (((List.mergeSort_perm slots slotLE).symm.trans (hms ▸ List.Perm.refl _)).eq_nil ▸ rfl : slots = []) h
  · simp only
    exact groupGo_ne_nil _ _

/-- Any property of `(participantCount, everyoneAvailable)` held by all input
slots is held by every produced range. -/
theorem groupConsecutiveSlots_pred (P : ℕ → Bool → Prop) (slots : List ScoredSlot)
    (h : ∀ s ∈ slots, P s.participantCount s.everyoneAvailable) :
    ∀ r ∈ groupConsecutiveSlots slots, P r.participantCount r.everyoneAvailable := by
  unfold groupConsecutiveSlots
  rcases hms : slots.mergeSort slotLE with _ | ⟨s, rest⟩
  · simp
  · have hmem : ∀ u ∈ s :: rest, u ∈ slots := by
      intro u hu
      exact ((List.mergeSort_perm slots slotLE).mem_iff).1 (hms ▸ hu)
    exact groupGo_pred P _ _ (h s (hmem s (List.mem_cons_self ..)))
      fun u hu => h u (hmem u (List.mem_cons_of_mem _ hu))

/-- Every input slot is covered by some produced range. -/
theorem groupConsecutiveSlots_covers (slots : List ScoredSlot) :
    ∀ s ∈ slots, ∃ r ∈ groupConsecutiveSlots slots,
      coversRange r s.dayIndex s.timeIndex := by
  intro s hs
  unfold groupConsecutiveSlots
  rcases hms : slots.mergeSort slotLE with _ | ⟨s0, rest⟩
  · exact absurd (((List.mergeSort_perm slots slotLE).symm.trans (hms ▸ List.Perm.refl _)).eq_nil)
      (by intro h; rw [h] at hs; simp at hs)
  · have hs' : s ∈ s0 :: rest := hms ▸ ((List.mergeSort_perm slots slotLE).mem_iff).2 hs
    apply groupGo_covers _ _ (le_refl _)
    rcases List.mem_cons.1 hs' with heq | hmem
    · subst heq
      exact Or.inl ⟨rfl, by simp [openRange], by simp [openRange]⟩
    · exact Or.inr ⟨s, hmem, rfl, rfl⟩

/-- Every position of every produced range comes from some input slot. -/
theorem groupConsecutiveSlots_sound (slots : List ScoredSlot) :
    ∀ r ∈ groupConsecutiveSlots slots, ∀ t, r.startTimeIndex ≤ t → t ≤ r.endTimeIndex →
      ∃ s ∈ slots, s.dayIndex = r.dayIndex ∧ s.timeIndex = t := by
  unfold groupConsecutiveSlots
  rcases hms : slots.mergeSort slotLE with _ | ⟨s0, rest⟩
  · simp
  · have hmem : ∀ u ∈ s0 :: rest, u ∈ slots := by
      intro u hu
      exact ((List.mergeSort_perm slots slotLE).mem_iff).1 (hms ▸ hu)
    intro r hr t h1 h2
    have := groupGo_sound (fun d t => ∃ s ∈ slots, s.dayIndex = d ∧ s.timeIndex = t)
      (openRange s0) rest
      (fun t h1 h2 => by
        simp only [openRange] at h1 h2
        have : t = s0.timeIndex := le_antisymm h2 h1
        subst this
        exact ⟨s0, hmem s0 (List.mem_cons_self ..), rfl, rfl⟩)
      (fun u hu => ⟨u, hmem u (List.mem_cons_of_mem _ hu), rfl, rfl⟩)
      r hr t h1 h2
    exact this

/-- Every produced range has a start not later than its end. -/
theorem groupConsecutiveSlots_start_le_end (slots : List ScoredSlot) :
    ∀ r ∈ groupConsecutiveSlots slots, r.startTimeIndex ≤ r.endTimeIndex := by
  unfold groupConsecutiveSlots
  rcases hms : slots.mergeSort slotLE with _ | ⟨s0, rest⟩
  · simp
  · exact groupGo_start_le_end _ _ (le_refl _)

/-- With pairwise-distinct slot keys, produced ranges are strictly separated
in emission order. -/
theorem groupConsecutiveSlots_pairwise (slots : List ScoredSlot)
    (hnd : (slots.map slotKey).Nodup) :
    (groupConsecutiveSlots slots).Pairwise rangeLT := by
  unfold groupConsecutiveSlots
  rcases hms : slots.mergeSort slotLE with _ | ⟨s0, rest⟩
  · simp
  · have hperm : List.Perm ((slots.mergeSort slotLE).map slotKey) (slots.map slotKey) :=
      (List.mergeSort_perm slots slotLE).map slotKey
    have hnd' : ((s0 :: rest).map slotKey).Nodup := by
      rw [← hms]
      exact hperm.nodup_iff.2 hnd
    have hsorted : (s0 :: rest).Pairwise fun a b => keyLT (slotKey a) (slotKey b) :=
      pairwise_keyLT_of_nodup _ (hms ▸ sorted_slotLE slots) hnd'
    exact groupGo_pairwise _ _ (le_refl _)
      (fun u hu => by
        have := List.rel_of_pairwise_cons hsorted hu
        simpa [openRange, slotKey] using this)
      (hsorted.sublist (List.sublist_cons_self ..))

/-! ### Lemmas about the slot-classification loop -/

theorem le_foldr_max (l : List ℕ) : ∀ x ∈ l, x ≤ l.foldr max 0 := by
  induction l with
  | nil => simp
  | cons a l ih =>
    intro x hx
    rcases List.mem_cons.1 hx with rfl | hx
    · simp only [List.foldr_cons]; omega
    · have := ih x hx
      simp only [List.foldr_cons]; omega

theorem foldr_max_append_singleton (l : List ℕ) (c : ℕ) :
    (l ++ [c]).foldr max 0 = max (l.foldr max 0) c := by
  induction l with
  | nil => simp
  | cons a l ih => simp only [List.cons_append, List.foldr_cons, ih]; omega

theorem foldr_max_mem (l : List ℕ) (h : l ≠ []) : l.foldr max 0 ∈ l := by
  induction l with
  | nil => simp at h
  | cons a l ih =>
    by_cases hl : l = []
    · subst hl; simp
    · have hm := ih hl
      simp only [List.foldr_cons]
      rcases Nat.le_total (l.foldr max 0) a with hle | hle
      · rw [Nat.max_eq_left hle]; exact List.mem_cons_self ..
      · rw [Nat.max_eq_right hle]; exact List.mem_cons_of_mem _ hm

/-- `perfectSlots` accumulates exactly the full-count entries, in order. -/
theorem foldl_tallyStep_perfect (total : ℕ) (es : List (TimeSlot × ℕ)) (st : AggState) :
    (es.foldl (tallyStep total) st).perfectSlots =
      st.perfectSlots ++
        (es.filter fun e => e.2 == total).map fun e => ⟨e.1.1, e.1.2, e.2, true⟩ := by
  induction es generalizing st with
  | nil => simp
  | cons e es ih =>
    simp only [List.foldl_cons, List.filter_cons, ih]
    by_cases h : e.2 = total
    · simp [tallyStep, h]
    · have hb : (e.2 == total) = false := by simp [h]
      rw [hb]
      simp only [Bool.false_eq_true, if_false]
      have : (tallyStep total st e).perfectSlots = st.perfectSlots := by
        unfold tallyStep
        rw [if_neg h]
        by_cases h2 : st.maxCount < e.2
        · rw [if_pos h2]
        · rw [if_neg h2]
          by_cases h3 : e.2 = st.maxCount
          · rw [if_pos h3]
          · rw [if_neg h3]
      rw [this]

/-- The classification loop's `maxCount` / `bestAlternativeSlots` invariant:
after the whole fold, `maxCount` is the maximum count among non-full entries
and `bestAlternativeSlots` collects exactly the non-full entries tied at that
maximum, in order. -/
theorem foldl_tallyStep_best (total : ℕ) (es : List (TimeSlot × ℕ)) :
    ∀ (done : List (TimeSlot × ℕ)) (st : AggState),
    st.maxCount = ((done.filter fun e => !(e.2 == total)).map fun e => e.2).foldr max 0 →
    st.bestAlternativeSlots =
      (((done.filter fun e => !(e.2 == total)).filter fun e => e.2 == st.maxCount).map mkAlt) →
    (es.foldl (tallyStep total) st).maxCount =
      ((((done ++ es).filter fun e => !(e.2 == total)).map fun e => e.2).foldr max 0) ∧
    (es.foldl (tallyStep total) st).bestAlternativeSlots =
      ((((done ++ es).filter fun e => !(e.2 == total)).filter
          fun e => e.2 == (es.foldl (tallyStep total) st).maxCount).map mkAlt) := by
  induction es with
  | nil =>
    intro done st hmax halt
    simp only [List.foldl_nil, List.append_nil]
    exact ⟨hmax, halt⟩
  | cons e es ih =>
    intro done st hmax halt
    have step : ((done ++ e :: es).filter fun x => !(x.2 == total)) =
        (((done ++ [e]) ++ es).filter fun x => !(x.2 == total)) := by
      simp
    rw [step]
    simp only [List.foldl_cons]
    apply ih (done ++ [e])
    · by_cases h : e.2 = total
      · have hb : (!(e.2 == total)) = false := by simp [h]
        simp only [tallyStep, if_pos h, List.filter_append, List.filter_cons, hb,
          List.filter_nil]
        simpa [List.filter_append] using hmax
      · have hb : (!(e.2 == total)) = true := by simp [h]
        have hsplit : ((done ++ [e]).filter fun x => !(x.2 == total)) =
            (done.filter fun x => !(x.2 == total)) ++ [e] := by
          simp [List.filter_append, List.filter_cons, hb]
        rw [hsplit]
        simp only [List.map_append, List.map_cons, List.map_nil]
        rw [foldr_max_append_singleton]
        unfold tallyStep
        rw [if_neg h]
        by_cases h2 : st.maxCount < e.2
        · rw [if_pos h2]
          simp only
          omega
        · rw [if_neg h2]
          have heq : max ((List.map (fun e => e.2) (done.filter fun x => !(x.2 == total))).foldr max 0) e.2 = st.maxCount := by
            rw [← hmax]; omega
          by_cases h3 : e.2 = st.maxCount
          · rw [if_pos h3]; simpa using heq.symm
          · rw [if_neg h3]; simpa using heq.symm
    · by_cases h : e.2 = total
      · have hb : (!(e.2 == total)) = false := by simp [h]
        have hsplit : ((done ++ [e]).filter fun x => !(x.2 == total)) =
            (done.filter fun x => !(x.2 == total)) := by
          simp [List.filter_append, List.filter_cons, hb]
        rw [hsplit]
        simp only [tallyStep, if_pos h, List.filter_append, List.filter_nil,
          List.append_nil]
        simpa using halt
      · have hb : (!(e.2 == total)) = true := by simp [h]
        have hsplit : ((done ++ [e]).filter fun x => !(x.2 == total)) =
            (done.filter fun x => !(x.2 == total)) ++ [e] := by
          simp [List.filter_append, List.filter_cons, hb]
        rw [hsplit]
        have hub : ∀ u ∈ done.filter fun x => !(x.2 == total), u.2 ≤ st.maxCount := by
          intro u hu
          rw [hmax]
          exact le_foldr_max _ _ (List.mem_map_of_mem (fun e => e.2) hu)
        unfold tallyStep
        rw [if_neg h]
        by_cases h2 : st.maxCount < e.2
        · rw [if_pos h2]
          simp only [List.filter_append, List.filter_cons]
          have hbeq : (e.2 == e.2) = true := by simp
          rw [hbeq]
          have hnone : ((done.filter fun x => !(x.2 == total)).filter fun x => x.2 == e.2) = [] := by
            apply List.filter_eq_nil_iff.2
            intro u hu
            have := hub u hu
            simp only [beq_iff_eq]
            omega
          simp [hnone, mkAlt]
        · rw [if_neg h2]
          by_cases h3 : e.2 = st.maxCount
          · rw [if_pos h3]
            simp only [List.filter_append, List.filter_cons]
            have hbeq : (e.2 == st.maxCount) = true := by simp [h3]
            rw [hbeq]
            simp only [if_true, List.map_append]
            rw [halt]
            simp [mkAlt]
          · rw [if_neg h3]
            simp only [List.filter_append, List.filter_cons]
            have hbeq : (e.2 == st.maxCount) = false := by simp [h3]
            rw [hbeq]
            simp only [Bool.false_eq_true, if_false, List.filter_nil, List.append_nil]
            exact halt

/-! ### Counting lemmas -/

/-- On a duplicate-free list, a slot's occurrence count is its membership
indicator. -/
theorem countP_eq_of_nodup (l : List TimeSlot) (hl : l.Nodup) (s : TimeSlot) :
    (l.countP fun t => decide (t = s)) = if s ∈ l then 1 else 0 := by
  induction l with
  | nil => simp
  | cons a l ih =>
    rw [List.countP_cons]
    rcases List.nodup_cons.1 hl with ⟨ha, hl2⟩
    by_cases h : a = s
    · subst h
      rw [ih hl2, if_neg ha, if_pos (List.mem_cons_self ..)]
      simp
    · have hiff : s ∈ a :: l ↔ s ∈ l := by
        constructor
        · intro hx
          rcases List.mem_cons.1 hx with heq | hx
          · exact absurd heq.symm h
          · exact hx
        · exact List.mem_cons_of_mem _
      rw [ih hl2]
      simp [h, hiff]

/-- With duplicate-free availability lists, the tally of a slot equals the
number of participants that marked it. -/
theorem count_flatten_eq_numAvail (ps : List (List TimeSlot))
    (hnd : ∀ l ∈ ps, l.Nodup) (s : TimeSlot) :
    (ps.flatten.countP fun t => decide (t = s)) = numAvail ps s := by
  induction ps with
  | nil => simp [numAvail]
  | cons l ps ih =>
    have hl := hnd l (List.mem_cons_self ..)
    have ih' := ih fun u hu => hnd u (List.mem_cons_of_mem _ hu)
    simp only [List.flatten_cons, List.countP_append, numAvail, List.countP_cons]
    unfold numAvail at ih'
    rw [countP_eq_of_nodup l hl s, ih']
    by_cases hm : s ∈ l
    · simp [hm]
      omega
    · simp [hm]

theorem numAvail_le_length (ps : List (List TimeSlot)) (s : TimeSlot) :
    numAvail ps s ≤ ps.length :=
  List.countP_le_length _

theorem numAvail_eq_length_iff (ps : List (List TimeSlot)) (s : TimeSlot) :
    numAvail ps s = ps.length ↔ ∀ l ∈ ps, s ∈ l := by
  unfold numAvail
  rw [List.countP_eq_length]
  simp

/-- Characterisation of the tally entries. -/
theorem mem_scoredEntries (ps : List (List TimeSlot)) (e : TimeSlot × ℕ) :
    e ∈ scoredEntries ps ↔
      e.1 ∈ ps.flatten ∧ e.2 = (ps.flatten.countP fun t => decide (t = e.1)) := by
  unfold scoredEntries
  constructor
  · intro h
    obtain ⟨s, hs, heq⟩ := List.mem_map.1 h
    subst heq
    exact ⟨List.mem_dedup.1 hs, rfl⟩
  · intro ⟨h1, h2⟩
    apply List.mem_map.2
    exact ⟨e.1, List.mem_dedup.2 h1, by rw [← h2]⟩

/-! ### Claim theorems: time aggregator -/

/-- **C1.** For every non-empty participant list with duplicate-free
availability sets sharing a common slot, `calculateOptimalTime` returns a
recommendation with `everyoneAvailable = true` whose every range carries
`participantCount` (the spec's `attendeeCount`) equal to the participant
count. -/
theorem calculateOptimalTime_universal (ps : List (List TimeSlot)) (s : TimeSlot)
    (hne : ps ≠ []) (hnd : ∀ l ∈ ps, l.Nodup) (hs : ∀ l ∈ ps, s ∈ l) :
    ∃ rec, calculateOptimalTime ps = some rec ∧ rec.everyoneAvailable = true ∧
      ∀ r ∈ rec.slots, r.participantCount = ps.length := by
  have hlen : ¬ ps.length = 0 := by simpa using hne
  have hflat : s ∈ ps.flatten := by
    obtain ⟨l, hl⟩ := List.exists_mem_of_ne_nil ps hne
    exact List.mem_flatten.2 ⟨l, hl, hs l hl⟩
  have hcnt : (ps.flatten.countP fun t => decide (t = s)) = ps.length := by
    rw [count_flatten_eq_numAvail ps hnd s]
    exact (numAvail_eq_length_iff ps s).2 hs
  have hentry : (s, ps.length) ∈ scoredEntries ps :=
    (mem_scoredEntries ps (s, ps.length)).2 ⟨hflat, hcnt.symm⟩
  set st := (scoredEntries ps).foldl (tallyStep ps.length) ⟨[], [], 0⟩ with hst
  have hperfeq : st.perfectSlots =
      ((scoredEntries ps).filter fun e => e.2 == ps.length).map
        fun e => ⟨e.1.1, e.1.2, e.2, true⟩ := by
    rw [hst]
    simpa using foldl_tallyStep_perfect ps.length (scoredEntries ps) ⟨[], [], 0⟩
  have hperfne : st.perfectSlots ≠ [] := by
    rw [hperfeq]
    have hmemf : (s, ps.length) ∈ (scoredEntries ps).filter fun e => e.2 == ps.length :=
      List.mem_filter.2 ⟨hentry, by simp⟩
    exact List.ne_nil_of_mem (List.mem_map_of_mem _ hmemf)
  have hglen : 0 < (groupConsecutiveSlots st.perfectSlots).length :=
    List.length_pos.2 (groupConsecutiveSlots_ne_nil _ hperfne)
  have hresult : calculateOptimalTime ps =
      some ⟨groupConsecutiveSlots st.perfectSlots, true,
        toString (groupConsecutiveSlots st.perfectSlots).length ++ " time range" ++
          (if 1 < (groupConsecutiveSlots st.perfectSlots).length then "s" else "") ++
          " where everyone is available"⟩ := by
    unfold calculateOptimalTime
    rw [if_neg hlen]
    simp only [← hst]
    rw [if_pos hglen]
  refine ⟨_, hresult, rfl, ?_⟩
  intro r hr
  apply groupConsecutiveSlots_pred (fun c _ => c = ps.length) st.perfectSlots ?_ r hr
  intro u hu
  rw [hperfeq] at hu
  obtain ⟨e, he, heq⟩ := List.mem_map.1 hu
  have hfe := (List.mem_filter.1 he).2
  rw [← heq]
  simpa using hfe

/-- Witness for C1: the spec's scenario of three participants sharing slot
`(0,4)`. -/
theorem calculateOptimalTime_universal_witness :
    (([[(0,4)], [(0,4),(0,5)], [(0,4)]] : List (List TimeSlot)) ≠ [] ∧
      (∀ l ∈ ([[(0,4)], [(0,4),(0,5)], [(0,4)]] : List (List TimeSlot)), l.Nodup) ∧
      (∀ l ∈ ([[(0,4)], [(0,4),(0,5)], [(0,4)]] : List (List TimeSlot)), ((0,4) : TimeSlot) ∈ l)) ∧
    (∃ rec, calculateOptimalTime [[(0,4)], [(0,4),(0,5)], [(0,4)]] = some rec ∧
      rec.everyoneAvailable = true ∧
      ∀ r ∈ rec.slots, r.participantCount = ([[(0,4)], [(0,4),(0,5)], [(0,4)]] : List (List TimeSlot)).length) :=
  ⟨⟨by decide, by decide, by decide⟩,
    calculateOptimalTime_universal [[(0,4)], [(0,4),(0,5)], [(0,4)]] (0,4)
      (by decide) (by decide) (by decide)⟩

/-- **C2.** With at least one marked slot but no slot common to all
participants (availability sets duplicate-free), `calculateOptimalTime`
returns a recommendation with `everyoneAvailable = false`, every range
carrying the true maximum overlap count, and every slot achieving that
maximum covered by some returned range. -/
theorem calculateOptimalTime_bestEffort (ps : List (List TimeSlot))
    (hne : ps ≠ []) (hnd : ∀ l ∈ ps, l.Nodup) (hmark : ps.flatten ≠ [])
    (hnc : ¬ ∃ s : TimeSlot, ∀ l ∈ ps, s ∈ l) :
    ∃ rec, calculateOptimalTime ps = some rec ∧ rec.everyoneAvailable = false ∧
      (∀ r ∈ rec.slots, r.participantCount = maxOverlap ps) ∧
      (∀ s ∈ ps.flatten, numAvail ps s = maxOverlap ps →
        ∃ r ∈ rec.slots, coversRange r s.1 s.2) := by
  have hlen : ¬ ps.length = 0 := by simpa using hne
  -- every tally entry is strictly below the participant count
  have hval : ∀ e ∈ scoredEntries ps, e.2 = numAvail ps e.1 ∧ e.2 ≠ ps.length := by
    intro e he
    obtain ⟨h1, h2⟩ := (mem_scoredEntries ps e).1 he
    have heq : e.2 = numAvail ps e.1 := by
      rw [h2, count_flatten_eq_numAvail ps hnd]
    refine ⟨heq, ?_⟩
    rw [heq]
    intro hcon
    exact hnc ⟨e.1, (numAvail_eq_length_iff ps e.1).1 hcon⟩
  set st := (scoredEntries ps).foldl (tallyStep ps.length) ⟨[], [], 0⟩ with hst
  -- the perfect pool is empty
  have hfilpos : ((scoredEntries ps).filter fun e => e.2 == ps.length) = [] := by
    apply List.filter_eq_nil_iff.2
    intro e he
    simpa using (hval e he).2
  have hperfnil : st.perfectSlots = [] := by
    rw [hst]
    have := foldl_tallyStep_perfect ps.length (scoredEntries ps) ⟨[], [], 0⟩
    simpa [hfilpos] using this
  -- the non-full filter keeps every entry
  have hfilneg : ((scoredEntries ps).filter fun e => !(e.2 == ps.length)) = scoredEntries ps := by
    apply List.filter_eq_self.2
    intro e he
    simpa using (hval e he).2
  have hbest := foldl_tallyStep_best ps.length (scoredEntries ps) [] ⟨[], [], 0⟩
    (by simp) (by simp)
  rw [List.nil_append, hfilneg] at hbest
  -- the loop's maxCount is the true maximum overlap
  have hmapeq : (scoredEntries ps).map (fun e => e.2) =
      (ps.flatten.dedup).map (numAvail ps) := by
    unfold scoredEntries
    rw [List.map_map]
    apply List.map_congr_left
    intro s hs
    simp only [Function.comp_apply]
    rw [count_flatten_eq_numAvail ps hnd]
  have hmax : st.maxCount = maxOverlap ps := by
    rw [← hst] at hbest
    rw [hbest.1, hmapeq]
    rfl
  -- the best-alternative pool is non-empty
  have hdedne : ps.flatten.dedup ≠ [] := by
    obtain ⟨t, ht⟩ := List.exists_mem_of_ne_nil ps.flatten hmark
    exact List.ne_nil_of_mem (List.mem_dedup.2 ht)
  have hattained : ∃ s ∈ ps.flatten.dedup, numAvail ps s = maxOverlap ps := by
    have hmm := foldr_max_mem ((ps.flatten.dedup).map (numAvail ps))
      (by simpa using hdedne)
    obtain ⟨s, hs, heq⟩ := List.mem_map.1 hmm
    exact ⟨s, hs, heq⟩
  obtain ⟨s0, hs0, hs0eq⟩ := hattained
  have hs0entry : (s0, numAvail ps s0) ∈ scoredEntries ps := by
    apply (mem_scoredEntries ps (s0, numAvail ps s0)).2
    exact ⟨List.mem_dedup.1 hs0, (count_flatten_eq_numAvail ps hnd s0).symm⟩
  have halteq : st.bestAlternativeSlots =
      ((scoredEntries ps).filter fun e => e.2 == st.maxCount).map mkAlt := by
    rw [← hst] at hbest
    exact hbest.2
  have haltne : st.bestAlternativeSlots ≠ [] := by
    rw [halteq]
    have hmemf : (s0, numAvail ps s0) ∈
        (scoredEntries ps).filter fun e => e.2 == st.maxCount := by
      apply List.mem_filter.2
      refine ⟨hs0entry, ?_⟩
      simp [hs0eq, hmax]
    exact List.ne_nil_of_mem (List.mem_map_of_mem _ hmemf)
  have hglen : 0 < (groupConsecutiveSlots st.bestAlternativeSlots).length :=
    List.length_pos.2 (groupConsecutiveSlots_ne_nil _ haltne)
  have hgperfnil : (groupConsecutiveSlots st.perfectSlots).length = 0 := by
    rw [hperfnil, groupConsecutiveSlots_nil]
    rfl
  have hresult : calculateOptimalTime ps =
      some ⟨groupConsecutiveSlots st.bestAlternativeSlots, false,
        "Best option: " ++ toString st.maxCount ++ " out of " ++
          toString ps.length ++ " participants available"⟩ := by
    unfold calculateOptimalTime
    rw [if_neg hlen]
    simp only [← hst]
    rw [if_neg (by rw [hgperfnil]; exact lt_irrefl 0), if_pos hglen]
  refine ⟨_, hresult, rfl, ?_, ?_⟩
  · intro r hr
    apply groupConsecutiveSlots_pred (fun c _ => c = maxOverlap ps)
      st.bestAlternativeSlots ?_ r hr
    intro u hu
    rw [halteq] at hu
    obtain ⟨e, he, heq⟩ := List.mem_map.1 hu
    have hfe := (List.mem_filter.1 he).2
    rw [← heq]
    simp only [mkAlt]
    have : e.2 = st.maxCount := by simpa using hfe
    rw [this, hmax]
  · intro s hsmem hsmax
    have hentry : (s, numAvail ps s) ∈ scoredEntries ps := by
      apply (mem_scoredEntries ps (s, numAvail ps s)).2
      exact ⟨hsmem, (count_flatten_eq_numAvail ps hnd s).symm⟩
    have hmemf : (s, numAvail ps s) ∈
        (scoredEntries ps).filter fun e => e.2 == st.maxCount := by
      apply List.mem_filter.2
      refine ⟨hentry, by simp [hsmax, hmax]⟩
    have hflt : mkAlt (s, numAvail ps s) ∈ st.bestAlternativeSlots := by
      rw [halteq]
      exact List.mem_map_of_mem _ hmemf
    have := groupConsecutiveSlots_covers st.bestAlternativeSlots _ hflt
    simpa [mkAlt] using this

/-- Witness for C2: two participants with disjoint single slots. -/
theorem calculateOptimalTime_bestEffort_witness :
    (([[(0,1)], [(0,3)]] : List (List TimeSlot)) ≠ [] ∧
      (∀ l ∈ ([[(0,1)], [(0,3)]] : List (List TimeSlot)), l.Nodup) ∧
      ([[(0,1)], [(0,3)]] : List (List TimeSlot)).flatten ≠ [] ∧
      ¬ ∃ s : TimeSlot, ∀ l ∈ ([[(0,1)], [(0,3)]] : List (List TimeSlot)), s ∈ l) ∧
    (∃ rec, calculateOptimalTime [[(0,1)], [(0,3)]] = some rec ∧
      rec.everyoneAvailable = false ∧
      (∀ r ∈ rec.slots, r.participantCount = maxOverlap [[(0,1)], [(0,3)]]) ∧
      (∀ s ∈ ([[(0,1)], [(0,3)]] : List (List TimeSlot)).flatten,
        numAvail [[(0,1)], [(0,3)]] s = maxOverlap [[(0,1)], [(0,3)]] →
        ∃ r ∈ rec.slots, coversRange r s.1 s.2)) :=
  ⟨⟨by decide, by decide, by decide, by
      rintro ⟨s, hs⟩
      have h1 := hs [(0,1)] (List.mem_cons_self ..)
      have h2 := hs [(0,3)] (List.mem_cons_of_mem _ (List.mem_cons_self ..))
      simp only [List.mem_singleton] at h1 h2
      rw [h1] at h2
      exact absurd h2 (by decide)⟩,
    calculateOptimalTime_bestEffort [[(0,1)], [(0,3)]]
      (by decide) (by decide) (by decide) (by
      rintro ⟨s, hs⟩
      have h1 := hs [(0,1)] (List.mem_cons_self ..)
      have h2 := hs [(0,3)] (List.mem_cons_of_mem _ (List.mem_cons_self ..))
      simp only [List.mem_singleton] at h1 h2
      rw [h1] at h2
      exact absurd h2 (by decide))⟩

/-- A pairwise-separated list has at most one element satisfying a predicate
incompatible with the separation. -/
theorem countP_le_one_of_pairwise {α : Type} (p : α → Bool) (R : α → α → Prop)
    (l : List α) (hpw : l.Pairwise R)
    (h : ∀ a b, R a b → ¬(p a = true ∧ p b = true)) :
    l.countP p ≤ 1 := by
  induction l with
  | nil => simp
  | cons a l ih =>
    rcases List.pairwise_cons.1 hpw with ⟨ha, hl⟩
    rw [List.countP_cons]
    by_cases hp : p a = true
    · have hz : l.countP p = 0 := by
        rw [List.countP_eq_zero]
        intro b hb hpb
        exact h a b (ha b hb) ⟨hp, hpb⟩
      simp [hz, hp]
    · have := ih hl
      simp [hp]
      omega

/-- **C7.** The contiguous-range grouping is maximal: no two adjacent output
ranges share a `dayIndex` with the second range starting exactly one time
index after the first ends (equivalently, re-running the merge on the output
changes nothing — no adjacent pair is mergeable).  This holds for every slot
list. -/
theorem groupConsecutiveSlots_maximal (slots : List ScoredSlot) :
    (groupConsecutiveSlots slots).Chain' fun r1 r2 =>
      ¬(r1.dayIndex = r2.dayIndex ∧ r2.startTimeIndex = r1.endTimeIndex + 1) := by
  unfold groupConsecutiveSlots
  rcases hms : slots.mergeSort slotLE with _ | ⟨s0, rest⟩
  · simp
  · exact groupGo_chain _ _

/-- **C9.** For a non-empty slot list with pairwise-distinct
`(dayIndex, timeIndex)` keys, the output ranges partition the input: every
input slot is covered by exactly one range (of the same day), every position
of every range is an input slot, every range satisfies
`startTimeIndex ≤ endTimeIndex`, and distinct same-day ranges never
overlap. -/
theorem groupConsecutiveSlots_partition (slots : List ScoredSlot)
    (hne : slots ≠ []) (hnd : (slots.map slotKey).Nodup) :
    (∀ s ∈ slots,
      ((groupConsecutiveSlots slots).countP
        fun r => decide (coversRange r s.dayIndex s.timeIndex)) = 1) ∧
    (∀ r ∈ groupConsecutiveSlots slots,
      ∀ t, r.startTimeIndex ≤ t → t ≤ r.endTimeIndex →
        ∃ s ∈ slots, s.dayIndex = r.dayIndex ∧ s.timeIndex = t) ∧
    (∀ r ∈ groupConsecutiveSlots slots, r.startTimeIndex ≤ r.endTimeIndex) ∧
    (∀ r1 ∈ groupConsecutiveSlots slots, ∀ r2 ∈ groupConsecutiveSlots slots,
      r1 ≠ r2 → r1.dayIndex = r2.dayIndex →
      r1.endTimeIndex < r2.startTimeIndex ∨ r2.endTimeIndex < r1.startTimeIndex) := by
  have hpw := groupConsecutiveSlots_pairwise slots hnd
  refine ⟨?_, groupConsecutiveSlots_sound slots, groupConsecutiveSlots_start_le_end slots, ?_⟩
  · intro s hs
    have hpos : 0 < (groupConsecutiveSlots slots).countP
        fun r => decide (coversRange r s.dayIndex s.timeIndex) := by
      obtain ⟨r, hr, hc⟩ := groupConsecutiveSlots_covers slots s hs
      exact List.countP_pos.2 ⟨r, hr, by simpa using hc⟩
    have hle : ((groupConsecutiveSlots slots).countP
        fun r => decide (coversRange r s.dayIndex s.timeIndex)) ≤ 1 := by
      apply countP_le_one_of_pairwise _ rangeLT _ hpw
      intro a b hab ⟨hpa, hpb⟩
      have hca : coversRange a s.dayIndex s.timeIndex := by simpa using hpa
      have hcb : coversRange b s.dayIndex s.timeIndex := by simpa using hpb
      unfold rangeLT at hab
      unfold coversRange at hca hcb
      omega
    omega
  · intro r1 h1 r2 h2 hne12 hday
    have hsym : Symmetric fun a b : TimeRange =>
        a.dayIndex ≠ b.dayIndex ∨ a.endTimeIndex < b.startTimeIndex ∨
          b.endTimeIndex < a.startTimeIndex := by
      intro a b hab
      rcases hab with h | h | h
      · exact Or.inl (Ne.symm h)
      · exact Or.inr (Or.inr h)
      · exact Or.inr (Or.inl h)
    have hpw2 : (groupConsecutiveSlots slots).Pairwise fun a b =>
        a.dayIndex ≠ b.dayIndex ∨ a.endTimeIndex < b.startTimeIndex ∨
          b.endTimeIndex < a.startTimeIndex := by
      refine hpw.imp ?_
      intro a b hab
      unfold rangeLT at hab
      omega
    have := hpw2.forall hsym h1 h2 hne12
    rcases this with h | h | h
    · exact absurd hday h
    · exact Or.inl h
    · exact Or.inr h

/-- Witness for C9: three slots forming two day-0 merged slots and one
day-1 slot. -/
theorem groupConsecutiveSlots_partition_witness :
    (([⟨0,4,3,true⟩, ⟨0,5,3,true⟩, ⟨1,2,1,false⟩] : List ScoredSlot) ≠ [] ∧
      (([⟨0,4,3,true⟩, ⟨0,5,3,true⟩, ⟨1,2,1,false⟩] : List ScoredSlot).map slotKey).Nodup) ∧
    ((∀ s ∈ ([⟨0,4,3,true⟩, ⟨0,5,3,true⟩, ⟨1,2,1,false⟩] : List ScoredSlot),
      ((groupConsecutiveSlots [⟨0,4,3,true⟩, ⟨0,5,3,true⟩, ⟨1,2,1,false⟩]).countP
        fun r => decide (coversRange r s.dayIndex s.timeIndex)) = 1) ∧
    (∀ r ∈ groupConsecutiveSlots [⟨0,4,3,true⟩, ⟨0,5,3,true⟩, ⟨1,2,1,false⟩],
      ∀ t, r.startTimeIndex ≤ t → t ≤ r.endTimeIndex →
        ∃ s ∈ ([⟨0,4,3,true⟩, ⟨0,5,3,true⟩, ⟨1,2,1,false⟩] : List ScoredSlot),
          s.dayIndex = r.dayIndex ∧ s.timeIndex = t) ∧
    (∀ r ∈ groupConsecutiveSlots [⟨0,4,3,true⟩, ⟨0,5,3,true⟩, ⟨1,2,1,false⟩],
      r.startTimeIndex ≤ r.endTimeIndex) ∧
    (∀ r1 ∈ groupConsecutiveSlots [⟨0,4,3,true⟩, ⟨0,5,3,true⟩, ⟨1,2,1,false⟩],
      ∀ r2 ∈ groupConsecutiveSlots [⟨0,4,3,true⟩, ⟨0,5,3,true⟩, ⟨1,2,1,false⟩],
      r1 ≠ r2 → r1.dayIndex = r2.dayIndex →
      r1.endTimeIndex < r2.startTimeIndex ∨ r2.endTimeIndex < r1.startTimeIndex)) :=
  ⟨⟨by decide, by decide⟩,
    groupConsecutiveSlots_partition [⟨0,4,3,true⟩, ⟨0,5,3,true⟩, ⟨1,2,1,false⟩]
      (by decide) (by decide)⟩

/-- **C5.** The two empty outcomes are absence / the empty list, never
errors (both functions are total): with no availability at all the time
aggregation returns `none`, and with zero available coordinates the
location ranking returns `[]`. -/
theorem engine_empty_outcomes (ps : List (List TimeSlot))
    (participants : List LocParticipant) (meeting : MeetingRecord)
    (hempty : ∀ l ∈ ps, l = [])
    (hcreator : meeting.creatorLocation = none)
    (hnoloc : ∀ p ∈ participants, p.location = none) :
    calculateOptimalTime ps = none ∧ findOptimalLocations participants meeting = [] := by
  constructor
  · by_cases hlen : ps.length = 0
    · unfold calculateOptimalTime
      rw [if_pos hlen]
    · have hflat : ps.flatten = [] := by
        apply List.flatten_eq_nil_iff.2
        exact hempty
      have hsc : scoredEntries ps = [] := by
        unfold scoredEntries
        rw [hflat]
        rfl
      unfold calculateOptimalTime
      rw [if_neg hlen]
      simp only [hsc, List.foldl_nil]
      rw [groupConsecutiveSlots_nil]
      rfl
  · have hlocs : participantLocations participants meeting = [] := by
      unfold participantLocations
      rw [hcreator, List.filterMap_eq_nil_iff.2 hnoloc]
      rfl
    unfold findOptimalLocations
    rw [hlocs]
    rfl

/-- Witness for C5: two availability-less participants; one location-less
participant and no creator location. -/
theorem engine_empty_outcomes_witness :
    ((∀ l ∈ ([[], []] : List (List TimeSlot)), l = []) ∧
      (MeetingRecord.mk none).creatorLocation = none ∧
      (∀ p ∈ [LocParticipant.mk none], p.location = none)) ∧
    (calculateOptimalTime [[], []] = none ∧
      findOptimalLocations [LocParticipant.mk none] (MeetingRecord.mk none) = []) :=
  ⟨⟨by decide, rfl, by
      intro p hp
      rw [List.mem_singleton] at hp
      rw [hp]⟩,
    engine_empty_outcomes [[], []] [LocParticipant.mk none] (MeetingRecord.mk none)
      (by decide) rfl
      (by
        intro p hp
        rw [List.mem_singleton] at hp
        rw [hp])⟩

/-! ### Lemmas about the Haversine distance -/

theorem calculateDistance_self (lat lng : ℝ) :
    calculateDistance lat lng lat lng = 0 := by
  unfold calculateDistance
  simp [atan2, Real.sqrt_one]

/-- Haversine symmetry lemma, shared by the claim theorems. -/
theorem calculateDistance_comm (lat1 lng1 lat2 lng2 : ℝ) :
    calculateDistance lat1 lng1 lat2 lng2 = calculateDistance lat2 lng2 lat1 lng1 := by
  unfold calculateDistance
  simp only
  have hsin : ∀ x : ℝ, Real.sin (-x) * Real.sin (-x) = Real.sin x * Real.sin x := by
    intro x; rw [Real.sin_neg]; ring
  have h1 : (lat1 - lat2) * Real.pi / 180 / 2 = -((lat2 - lat1) * Real.pi / 180 / 2) := by
    ring
  have h2 : (lng1 - lng2) * Real.pi / 180 / 2 = -((lng2 - lng1) * Real.pi / 180 / 2) := by
    ring
  have ha : Real.sin ((lat2 - lat1) * Real.pi / 180 / 2) *
        Real.sin ((lat2 - lat1) * Real.pi / 180 / 2) +
      Real.cos (lat1 * Real.pi / 180) * Real.cos (lat2 * Real.pi / 180) *
        (Real.sin ((lng2 - lng1) * Real.pi / 180 / 2) *
          Real.sin ((lng2 - lng1) * Real.pi / 180 / 2)) =
      Real.sin ((lat1 - lat2) * Real.pi / 180 / 2) *
        Real.sin ((lat1 - lat2) * Real.pi / 180 / 2) +
      Real.cos (lat2 * Real.pi / 180) * Real.cos (lat1 * Real.pi / 180) *
        (Real.sin ((lng1 - lng2) * Real.pi / 180 / 2) *
          Real.sin ((lng1 - lng2) * Real.pi / 180 / 2)) := by
    rw [h1, h2, hsin, hsin]
    ring
  rw [ha]

/-- **C8.** The Haversine `calculateDistance` (Earth radius 6371000 m) is
symmetric, and the distance from any point to itself is zero. -/
theorem calculateDistance_symm_and_zero :
    (∀ lat1 lng1 lat2 lng2 : ℝ,
      calculateDistance lat1 lng1 lat2 lng2 = calculateDistance lat2 lng2 lat1 lng1) ∧
    (∀ lat lng : ℝ, calculateDistance lat lng lat lng = 0) :=
  ⟨calculateDistance_comm, calculateDistance_self⟩

/-! ### Lemmas about the location ranking -/

theorem scoreLE_trans : ∀ (a b c : ScoredBuilding),
    scoreLE a b = true → scoreLE b c = true → scoreLE a c = true := by
  intro a b c h1 h2
  simp only [scoreLE, decide_eq_true_eq] at *
  omega

theorem scoreLE_total : ∀ (a b : ScoredBuilding), (scoreLE a b || scoreLE b a) = true := by
  intro a b
  simp only [scoreLE, Bool.or_eq_true, decide_eq_true_eq]
  omega

/-- With at least one collected coordinate, the ranking is the first five
entries of the stably sorted scored catalog. -/
theorem findOptimalLocations_eq_take (participants : List LocParticipant)
    (meeting : MeetingRecord)
    (h : participantLocations participants meeting ≠ []) :
    findOptimalLocations participants meeting =
      ((campusBuildings.map
        (scoreBuilding (participantLocations participants meeting))).mergeSort
          scoreLE).take 5 := by
  unfold findOptimalLocations
  rw [if_neg (by simpa using h)]

/-- **C3.** With at least one collected GeoPoint the ranking is sorted
ascending by the exposed `avgDistance` (the spec's `meanDistanceMeters`),
contains exactly `min 5 (catalog size)` entries, and those entries are
catalog candidates with the smallest mean distances: the output plus the
dropped suffix is a permutation of the whole scored catalog, and every
returned entry's mean is at most every dropped entry's mean. -/
theorem findOptimalLocations_sorted_top5 (participants : List LocParticipant)
    (meeting : MeetingRecord)
    (h : participantLocations participants meeting ≠ []) :
    (findOptimalLocations participants meeting).Pairwise
      (fun a b => a.avgDistance ≤ b.avgDistance) ∧
    (findOptimalLocations participants meeting).length = min 5 campusBuildings.length ∧
    (∀ x ∈ findOptimalLocations participants meeting,
      ∀ y ∈ ((campusBuildings.map
          (scoreBuilding (participantLocations participants meeting))).mergeSort
            scoreLE).drop 5,
        x.avgDistance ≤ y.avgDistance) ∧
    List.Perm
      (findOptimalLocations participants meeting ++
        ((campusBuildings.map
          (scoreBuilding (participantLocations participants meeting))).mergeSort
            scoreLE).drop 5)
      (campusBuildings.map (scoreBuilding (participantLocations participants meeting))) := by
  have heq := findOptimalLocations_eq_take participants meeting h
  set sorted := (campusBuildings.map
    (scoreBuilding (participantLocations participants meeting))).mergeSort scoreLE with hsorted
  have hpw : sorted.Pairwise fun a b => a.avgDistance ≤ b.avgDistance := by
    refine (List.sorted_mergeSort scoreLE_trans scoreLE_total _).imp ?_
    intro a b hb
    simpa [scoreLE] using hb
  refine ⟨?_, ?_, ?_, ?_⟩
  · rw [heq]
    exact hpw.sublist (List.take_sublist 5 sorted)
  · rw [heq, List.length_take, List.length_mergeSort, List.length_map]
  · rw [heq]
    rw [← List.take_append_drop 5 sorted] at hpw
    exact (List.pairwise_append.1 hpw).2.2
  · rw [heq, List.take_append_drop]
    exact List.mergeSort_perm _ _

/-- Witness for C3: one participant at latitude 0, longitude 0. -/
theorem findOptimalLocations_sorted_top5_witness :
    (participantLocations [LocParticipant.mk (some (Coordinates.mk 0 0))]
      (MeetingRecord.mk none) ≠ []) ∧
    ((findOptimalLocations [LocParticipant.mk (some (Coordinates.mk 0 0))]
        (MeetingRecord.mk none)).Pairwise
      (fun a b => a.avgDistance ≤ b.avgDistance) ∧
    (findOptimalLocations [LocParticipant.mk (some (Coordinates.mk 0 0))]
        (MeetingRecord.mk none)).length = min 5 campusBuildings.length ∧
    (∀ x ∈ findOptimalLocations [LocParticipant.mk (some (Coordinates.mk 0 0))]
        (MeetingRecord.mk none),
      ∀ y ∈ ((campusBuildings.map
          (scoreBuilding (participantLocations
            [LocParticipant.mk (some (Coordinates.mk 0 0))]
            (MeetingRecord.mk none)))).mergeSort scoreLE).drop 5,
        x.avgDistance ≤ y.avgDistance) ∧
    List.Perm
      (findOptimalLocations [LocParticipant.mk (some (Coordinates.mk 0 0))]
          (MeetingRecord.mk none) ++
        ((campusBuildings.map
          (scoreBuilding (participantLocations
            [LocParticipant.mk (some (Coordinates.mk 0 0))]
            (MeetingRecord.mk none)))).mergeSort scoreLE).drop 5)
      (campusBuildings.map (scoreBuilding (participantLocations
        [LocParticipant.mk (some (Coordinates.mk 0 0))]
        (MeetingRecord.mk none))))) :=
  ⟨by simp [participantLocations],
    findOptimalLocations_sorted_top5 [LocParticipant.mk (some (Coordinates.mk 0 0))]
      (MeetingRecord.mk none) (by simp [participantLocations])⟩

/-- Every ranking entry is the scored record of some catalog building. -/
theorem mem_findOptimalLocations (participants : List LocParticipant)
    (meeting : MeetingRecord) (e : ScoredBuilding)
    (he : e ∈ findOptimalLocations participants meeting) :
    ∃ b ∈ campusBuildings,
      e = scoreBuilding (participantLocations participants meeting) b := by
  by_cases h : participantLocations participants meeting = []
  · unfold findOptimalLocations at he
    rw [if_pos (by simpa using congrArg List.length h)] at he
    simp at he
  · rw [findOptimalLocations_eq_take participants meeting h] at he
    have hmem : e ∈ (campusBuildings.map
        (scoreBuilding (participantLocations participants meeting))).mergeSort scoreLE :=
      List.mem_of_mem_take he
    have := (List.mergeSort_perm _ scoreLE).mem_iff.1 hmem
    obtain ⟨b, hb, heq⟩ := List.mem_map.1 this
    exact ⟨b, hb, heq.symm⟩

/-- **C10.** Every exposed distance field of a ranking entry is the
`Math.round` (to whole metres) of the corresponding raw real quantity —
rounding happens before sorting and returning — and `fairnessScore` is
`round(rawMax - rawMean)` computed from the raw values, not from the
already-rounded fields; `jsRound` is rounding to a nearest integer (it
differs from its argument by at most half a metre). -/
theorem findOptimalLocations_fields_rounded (participants : List LocParticipant)
    (meeting : MeetingRecord) :
    (∀ e ∈ findOptimalLocations participants meeting,
      ∃ b ∈ campusBuildings,
        e.avgDistance = jsRound (rawTotalDistance (participantLocations participants meeting) b /
          ((participantLocations participants meeting).length : ℝ)) ∧
        e.maxDistance = jsRound (rawMaxDistance (participantLocations participants meeting) b) ∧
        e.totalDistance = jsRound (rawTotalDistance (participantLocations participants meeting) b) ∧
        e.fairnessScore = jsRound (rawMaxDistance (participantLocations participants meeting) b -
          rawTotalDistance (participantLocations participants meeting) b /
            ((participantLocations participants meeting).length : ℝ))) ∧
    (∀ x : ℝ, |(jsRound x : ℝ) - x| ≤ 1 / 2) := by
  constructor
  · intro e he
    obtain ⟨b, hb, heq⟩ := mem_findOptimalLocations participants meeting e he
    refine ⟨b, hb, ?_, ?_, ?_, ?_⟩ <;> rw [heq] <;> rfl
  · intro x
    rw [abs_le]
    constructor
    · have := Int.lt_floor_add_one (x + 1 / 2)
      unfold jsRound
      push_cast at this ⊢
      linarith
    · have := Int.floor_le (x + 1 / 2)
      unfold jsRound
      push_cast at this ⊢
      linarith

/-- **C6 (counterexample).** The engine does not fail fast on malformed
input: a GeoPoint with latitude `200` (far outside `[-90, 90]`) is accepted
and produces a normal five-entry ranking instead of any validation error
(the source has no validation or error path at all). -/
theorem no_validation_counterexample :
    (90 : ℝ) < 200 ∧
    (findOptimalLocations [LocParticipant.mk (some (Coordinates.mk 200 0))]
      (MeetingRecord.mk none)).length = 5 := by
  constructor
  · norm_num
  · rw [findOptimalLocations_eq_take _ _ (by simp [participantLocations])]
    rw [List.length_take, List.length_mergeSort, List.length_map]
    rfl

/-- **C6 (amended).** The engine performs no input validation: whatever the
coordinate values — malformed or not — a participant location is passed
unclamped into the computation and the ranking is a normal
`min 5 (catalog size)`-entry list; no validation error is ever produced. -/
theorem no_validation_amended (lat lng : ℝ) (participants : List LocParticipant)
    (meeting : MeetingRecord) :
    (findOptimalLocations
      (LocParticipant.mk (some (Coordinates.mk lat lng)) :: participants)
      meeting).length = min 5 campusBuildings.length := by
  have hne : participantLocations
      (LocParticipant.mk (some (Coordinates.mk lat lng)) :: participants) meeting ≠ [] := by
    unfold participantLocations
    rcases meeting.creatorLocation with _ | c <;> simp [List.filterMap_cons]
  rw [findOptimalLocations_eq_take _ _ hne]
  rw [List.length_take, List.length_mergeSort, List.length_map]

theorem foldl_add_eq_sum (l : List ℝ) : ∀ a : ℝ, l.foldl (· + ·) a = a + l.sum := by
  induction l with
  | nil => intro a; simp
  | cons x l ih =>
    intro a
    simp only [List.foldl_cons, List.sum_cons, ih]
    ring

theorem init_le_foldl_max (l : List ℝ) : ∀ a : ℝ, a ≤ l.foldl max a := by
  induction l with
  | nil => intro a; simp
  | cons x l ih =>
    intro a
    simp only [List.foldl_cons]
    exact le_trans (le_max_left a x) (ih (max a x))

theorem mem_le_foldl_max (l : List ℝ) : ∀ (a : ℝ), ∀ x ∈ l, x ≤ l.foldl max a := by
  induction l with
  | nil => simp
  | cons y l ih =>
    intro a x hx
    rcases List.mem_cons.1 hx with rfl | hx
    · simp only [List.foldl_cons]
      exact le_trans (le_max_right a x) (init_le_foldl_max l (max a x))
    · simp only [List.foldl_cons]
      exact ih (max a y) x hx

/-- Rounding a difference agrees with the difference of the roundings up to
one unit in either direction. -/
theorem jsRound_sub_bounds (u v : ℝ) :
    jsRound u - jsRound v - 1 ≤ jsRound (u - v) ∧
    jsRound (u - v) ≤ jsRound u - jsRound v + 1 := by
  unfold jsRound
  have h1 := Int.floor_le (u + 1 / 2)
  have h2 := Int.lt_floor_add_one (u + 1 / 2)
  have h3 := Int.floor_le (v + 1 / 2)
  have h4 := Int.lt_floor_add_one (v + 1 / 2)
  have h5 := Int.floor_le (u - v + 1 / 2)
  have h6 := Int.lt_floor_add_one (u - v + 1 / 2)
  have hlow : ((⌊u + 1 / 2⌋ - ⌊v + 1 / 2⌋ - 2 : ℤ) : ℝ) < ((⌊u - v + 1 / 2⌋ : ℤ) : ℝ) := by
    push_cast
    linarith
  have hhigh : ((⌊u - v + 1 / 2⌋ : ℤ) : ℝ) < ((⌊u + 1 / 2⌋ - ⌊v + 1 / 2⌋ + 2 : ℤ) : ℝ) := by
    push_cast
    linarith
  have hl : (⌊u + 1 / 2⌋ - ⌊v + 1 / 2⌋ - 2 : ℤ) < ⌊u - v + 1 / 2⌋ := by exact_mod_cast hlow
  have hh : ⌊u - v + 1 / 2⌋ < (⌊u + 1 / 2⌋ - ⌊v + 1 / 2⌋ + 2 : ℤ) := by exact_mod_cast hhigh
  omega

/-- The raw mean distance never exceeds the raw maximum distance. -/
theorem rawMean_le_rawMax (locs : List Coordinates) (b : Building)
    (hn : 0 < locs.length) :
    rawTotalDistance locs b / (locs.length : ℝ) ≤ rawMaxDistance locs b := by
  unfold rawTotalDistance rawMaxDistance
  set d := locs.map fun p => calculateDistance (b.lat : ℝ) (b.lng : ℝ) p.lat p.lng with hd
  have hsum : d.foldl (· + ·) 0 = d.sum := by
    rw [foldl_add_eq_sum]
    ring
  have hbound : ∀ x ∈ d, x ≤ d.foldl max 0 := mem_le_foldl_max d 0
  have hle : d.sum ≤ d.length • d.foldl max 0 := List.sum_le_card_nsmul d _ hbound
  rw [nsmul_eq_mul] at hle
  have hlen : d.length = locs.length := List.length_map _ _
  rw [hsum, div_le_iff (by exact_mod_cast hn)]
  rw [hlen] at hle
  linarith [hle]

/-- **C4 (amended).** Every ranking entry's `fairnessScore` is non-negative,
and it equals the rounding of the raw `max - mean` gap, which can differ
from the difference of the separately rounded exposed fields
`maxDistance - avgDistance` by at most one metre (exact equality fails; see
the counterexample). -/
theorem fairnessScore_amended (participants : List LocParticipant)
    (meeting : MeetingRecord) :
    ∀ e ∈ findOptimalLocations participants meeting,
      0 ≤ e.fairnessScore ∧
      e.maxDistance - e.avgDistance - 1 ≤ e.fairnessScore ∧
      e.fairnessScore ≤ e.maxDistance - e.avgDistance + 1 := by
  intro e he
  have hlocs : participantLocations participants meeting ≠ [] := by
    intro hcon
    unfold findOptimalLocations at he
    rw [if_pos (by simpa using congrArg List.length hcon)] at he
    simp at he
  obtain ⟨b, hb, heq⟩ := mem_findOptimalLocations participants meeting e he
  have hn : 0 < (participantLocations participants meeting).length :=
    List.length_pos.2 hlocs
  have hmean := rawMean_le_rawMax (participantLocations participants meeting) b hn
  have hf : e.fairnessScore = jsRound (rawMaxDistance (participantLocations participants meeting) b -
      rawTotalDistance (participantLocations participants meeting) b /
        ((participantLocations participants meeting).length : ℝ)) := by
    rw [heq]; rfl
  have hm : e.maxDistance = jsRound (rawMaxDistance (participantLocations participants meeting) b) := by
    rw [heq]; rfl
  have hav : e.avgDistance = jsRound (rawTotalDistance (participantLocations participants meeting) b /
      ((participantLocations participants meeting).length : ℝ)) := by
    rw [heq]; rfl
  have hbounds := jsRound_sub_bounds
    (rawMaxDistance (participantLocations participants meeting) b)
    (rawTotalDistance (participantLocations participants meeting) b /
      ((participantLocations participants meeting).length : ℝ))
  refine ⟨?_, ?_, ?_⟩
  · rw [hf]
    unfold jsRound
    apply Int.le_floor.2
    push_cast
    linarith
  · rw [hf, hm, hav]
    exact hbounds.1
  · rw [hf, hm, hav]
    exact hbounds.2

theorem calculateDistance_eq_havA (lat1 lng1 lat2 lng2 : ℝ) :
    calculateDistance lat1 lng1 lat2 lng2 =
      6371000 * (2 * atan2 (Real.sqrt (havA lat1 lng1 lat2 lng2))
        (Real.sqrt (1 - havA lat1 lng1 lat2 lng2))) := rfl

theorem havA_nonneg (lat1 lng1 lat2 lng2 : ℝ)
    (h1 : 0 ≤ Real.cos (lat1 * Real.pi / 180))
    (h2 : 0 ≤ Real.cos (lat2 * Real.pi / 180)) :
    0 ≤ havA lat1 lng1 lat2 lng2 := by
  unfold havA
  have := mul_self_nonneg (Real.sin ((lat2 - lat1) * Real.pi / 180 / 2))
  have := mul_self_nonneg (Real.sin ((lng2 - lng1) * Real.pi / 180 / 2))
  positivity

/-- Key trigonometric identity behind the antipodal distance sum. -/
theorem trig_antipodal (u w v : ℝ) :
    Real.sin w * Real.sin w +
      Real.cos (w - u) * Real.cos (w + u) * (Real.cos v * Real.cos v) =
    1 - (Real.sin u * Real.sin u +
      Real.cos (w - u) * Real.cos (w + u) * (Real.sin v * Real.sin v)) := by
  have h1 := Real.sin_sq_add_cos_sq v
  have h2 := Real.sin_sq_add_cos_sq u
  have h3 := Real.sin_sq_add_cos_sq w
  have h4 : Real.cos (w - u) * Real.cos (w + u) = Real.cos w ^ 2 - Real.sin u ^ 2 := by
    rw [Real.cos_sub, Real.cos_add]
    nlinarith [h2, h3]
  rw [h4]
  linear_combination (Real.cos w ^ 2 - Real.sin u ^ 2) * h1 + h3

/-- The haversine `a` of the antipode of the second point is the complement
of the original `a`. -/
theorem havA_antipodal (latb lngb latp lngp : ℝ) :
    havA latb lngb (-latp) (lngp + 180) = 1 - havA latb lngb latp lngp := by
  unfold havA
  have e1 : (-latp - latb) * Real.pi / 180 / 2 =
      -((latp + latb) * Real.pi / 360) := by ring
  have e2 : (latp - latb) * Real.pi / 180 / 2 = (latp - latb) * Real.pi / 360 := by ring
  have e3 : (lngp + 180 - lngb) * Real.pi / 180 / 2 =
      (lngp - lngb) * Real.pi / 180 / 2 + Real.pi / 2 := by ring
  have e4 : -latp * Real.pi / 180 = -(latp * Real.pi / 180) := by ring
  rw [e1, e3, e4, Real.sin_neg, Real.cos_neg, Real.sin_add_pi_div_two]
  have e5 : latb * Real.pi / 180 =
      (latp + latb) * Real.pi / 360 - (latp - latb) * Real.pi / 360 := by ring
  have e6 : latp * Real.pi / 180 =
      (latp + latb) * Real.pi / 360 + (latp - latb) * Real.pi / 360 := by ring
  rw [e2, e5, e6]
  have := trig_antipodal ((latp - latb) * Real.pi / 360)
    ((latp + latb) * Real.pi / 360) ((lngp - lngb) * Real.pi / 180 / 2)
  linear_combination this

/-- For non-negative arguments not both zero, swapping `atan2`'s arguments
complements it to a right angle. -/
theorem atan2_add_swap (y x : ℝ) (hy : 0 ≤ y) (hx : 0 ≤ x)
    (hne : ¬(x = 0 ∧ y = 0)) :
    atan2 y x + atan2 x y = Real.pi / 2 := by
  rcases lt_or_eq_of_le hx with hx' | hx'
  · rcases lt_or_eq_of_le hy with hy' | hy'
    · unfold atan2
      rw [if_pos hx', if_pos hy']
      have h : x / y = (y / x)⁻¹ := by
        rw [← one_div, one_div_div]
      rw [h, Real.arctan_inv_of_pos (div_pos hy' hx')]
      ring
    · have ha : atan2 0 x = 0 := by
        unfold atan2
        rw [if_pos hx', zero_div, Real.arctan_zero]
      have hb : atan2 x 0 = Real.pi / 2 := by
        unfold atan2
        rw [if_neg (lt_irrefl (0:ℝ)), if_neg (lt_irrefl (0:ℝ)), if_pos hx']
      rw [← hy', ha, hb, zero_add]
  · have hy' : 0 < y := by
      rcases lt_or_eq_of_le hy with h | h
      · exact h
      · exact absurd ⟨hx'.symm, h.symm⟩ hne
    have ha : atan2 y 0 = Real.pi / 2 := by
      unfold atan2
      rw [if_neg (lt_irrefl (0:ℝ)), if_neg (lt_irrefl (0:ℝ)), if_pos hy']
    have hb : atan2 0 y = 0 := by
      unfold atan2
      rw [if_pos hy', zero_div, Real.arctan_zero]
    rw [← hx', ha, hb, add_zero]

/-- A latitude within `[0, 90]` degrees has a non-negative cosine in
radians. -/
theorem cos_deg_nonneg (x : ℝ) (h0 : 0 ≤ x) (h90 : x ≤ 90) :
    0 ≤ Real.cos (x * Real.pi / 180) := by
  apply Real.cos_nonneg_of_mem_Icc
  constructor
  · have hpos : 0 ≤ x * Real.pi / 180 := by positivity
    have := Real.pi_pos
    linarith
  · have hpi := Real.pi_pos
    rw [div_le_iff (by norm_num : (0:ℝ) < 180)]
    nlinarith

/-- The sum of the distances from any point to a point and to its antipode
is half the Earth's circumference, `π * 6371000`. -/
theorem dist_add_antipode (latb lngb latp lngp : ℝ)
    (hb : 0 ≤ Real.cos (latb * Real.pi / 180))
    (hp : 0 ≤ Real.cos (latp * Real.pi / 180)) :
    calculateDistance latb lngb latp lngp +
      calculateDistance latb lngb (-latp) (lngp + 180) = Real.pi * 6371000 := by
  have hp' : 0 ≤ Real.cos (-latp * Real.pi / 180) := by
    have e : -latp * Real.pi / 180 = -(latp * Real.pi / 180) := by ring
    rw [e, Real.cos_neg]
    exact hp
  have ha1 : 0 ≤ havA latb lngb latp lngp := havA_nonneg latb lngb latp lngp hb hp
  have ha2eq : havA latb lngb (-latp) (lngp + 180) = 1 - havA latb lngb latp lngp :=
    havA_antipodal latb lngb latp lngp
  have ha2 : 0 ≤ 1 - havA latb lngb latp lngp := by
    rw [← ha2eq]
    exact havA_nonneg latb lngb (-latp) (lngp + 180) hb hp'
  rw [calculateDistance_eq_havA, calculateDistance_eq_havA, ha2eq]
  have h11 : 1 - (1 - havA latb lngb latp lngp) = havA latb lngb latp lngp := by ring
  rw [h11]
  have hswap := atan2_add_swap (Real.sqrt (havA latb lngb latp lngp))
    (Real.sqrt (1 - havA latb lngb latp lngp))
    (Real.sqrt_nonneg _) (Real.sqrt_nonneg _)
    (by
      intro ⟨hz1, hz2⟩
      have hz1' := Real.sqrt_eq_zero'.1 hz1
      have hz2' := Real.sqrt_eq_zero'.1 hz2
      linarith)
  linarith [hswap]

/-- A relation holding between all pairs of members holds pairwise. -/
theorem pairwise_of_all {α : Type} (R : α → α → Prop) (l : List α)
    (h : ∀ a ∈ l, ∀ b ∈ l, R a b) : l.Pairwise R := by
  induction l with
  | nil => exact List.Pairwise.nil
  | cons a l ih =>
    refine List.pairwise_cons.2 ⟨?_, ?_⟩
    · intro b hb
      exact h a (List.mem_cons_self ..) b (List.mem_cons_of_mem _ hb)
    · exact ih fun u hu v hv =>
        h u (List.mem_cons_of_mem _ hu) v (List.mem_cons_of_mem _ hv)

theorem jsRound_pi_half : jsRound (Real.pi * 6371000 / 2) = 10007543 := by
  unfold jsRound
  have h1 := Real.pi_gt_d20
  have h2 := Real.pi_lt_d20
  rw [Int.floor_eq_iff]
  constructor
  · push_cast
    nlinarith
  · push_cast
    nlinarith

theorem jsRound_pi_full : jsRound (Real.pi * 6371000) = 20015087 := by
  unfold jsRound
  have h1 := Real.pi_gt_d20
  have h2 := Real.pi_lt_d20
  rw [Int.floor_eq_iff]
  constructor
  · push_cast
    nlinarith
  · push_cast
    nlinarith

theorem cex_latb : ∀ b ∈ campusBuildings, (0:ℝ) ≤ (b.lat:ℝ) ∧ (b.lat:ℝ) ≤ 90 := by
  intro b hb
  fin_cases hb <;> constructor <;> norm_num

theorem cex_p1cos : 0 ≤ Real.cos (cexP1.lat * Real.pi / 180) :=
  cos_deg_nonneg _ (by simp only [cexP1]; push_cast; norm_num)
    (by simp only [cexP1]; push_cast; norm_num)

theorem cex_sum : ∀ b ∈ campusBuildings,
    calculateDistance (b.lat:ℝ) (b.lng:ℝ) cexP1.lat cexP1.lng +
      calculateDistance (b.lat:ℝ) (b.lng:ℝ) cexP2.lat cexP2.lng =
        Real.pi * 6371000 := by
  intro b hb
  obtain ⟨h0, h90⟩ := cex_latb b hb
  have hcb := cos_deg_nonneg _ h0 h90
  have h := dist_add_antipode (b.lat:ℝ) (b.lng:ℝ) cexP1.lat cexP1.lng hcb cex_p1cos
  have e1 : cexP2.lat = -cexP1.lat := rfl
  have e2 : cexP2.lng = cexP1.lng + 180 := rfl
  rw [e1, e2]
  exact h

theorem cex_raw : ∀ b ∈ campusBuildings,
    rawTotalDistance cexLocs b = Real.pi * 6371000 := by
  intro b hb
  show List.foldl (· + ·) 0
    (List.map (fun p => calculateDistance (b.lat:ℝ) (b.lng:ℝ) p.lat p.lng)
      [cexP1, cexP2]) = Real.pi * 6371000
  rw [List.map_cons, List.map_cons, List.map_nil, List.foldl_cons, List.foldl_cons,
    List.foldl_nil, zero_add]
  exact cex_sum b hb

theorem cex_avgf : ∀ b ∈ campusBuildings,
    (scoreBuilding cexLocs b).avgDistance = jsRound (Real.pi * 6371000 / 2) := by
  intro b hb
  show jsRound (rawTotalDistance cexLocs b / ((cexLocs.length : ℕ) : ℝ)) = _
  rw [cex_raw b hb]
  norm_num [cexLocs]

theorem cex_mergeSort :
    (campusBuildings.map (scoreBuilding cexLocs)).mergeSort scoreLE =
      campusBuildings.map (scoreBuilding cexLocs) :=
  List.mergeSort_of_sorted (pairwise_of_all _ _ (by
    intro x hx y hy
    obtain ⟨b1, hb1, he1⟩ := List.mem_map.1 hx
    obtain ⟨b2, hb2, he2⟩ := List.mem_map.1 hy
    rw [← he1, ← he2]
    simp only [scoreLE, decide_eq_true_eq]
    rw [cex_avgf b1 hb1, cex_avgf b2 hb2]))

theorem cex_out :
    findOptimalLocations
      [(⟨some cexP1⟩ : LocParticipant), (⟨some cexP2⟩ : LocParticipant)]
      (⟨none⟩ : MeetingRecord) =
      (campusBuildings.map (scoreBuilding cexLocs)).take 5 := by
  have hlocs : participantLocations
      [(⟨some cexP1⟩ : LocParticipant), (⟨some cexP2⟩ : LocParticipant)]
      (⟨none⟩ : MeetingRecord) = cexLocs := rfl
  rw [findOptimalLocations_eq_take _ _ (by rw [hlocs]; unfold cexLocs; simp)]
  rw [hlocs, cex_mergeSort]

theorem cex_lwsn_mem : cexLWSN ∈ campusBuildings := by
  rw [show campusBuildings = cexLWSN :: campusBuildings.tail from rfl]
  exact List.mem_cons_self ..

theorem cex_maxL : rawMaxDistance cexLocs cexLWSN = Real.pi * 6371000 := by
  have hd1 : calculateDistance (cexLWSN.lat:ℝ) (cexLWSN.lng:ℝ) cexP1.lat cexP1.lng = 0 :=
    calculateDistance_self (cexLWSN.lat:ℝ) (cexLWSN.lng:ℝ)
  have hd2 : calculateDistance (cexLWSN.lat:ℝ) (cexLWSN.lng:ℝ) cexP2.lat cexP2.lng =
      Real.pi * 6371000 := by
    have := cex_sum cexLWSN cex_lwsn_mem
    linarith
  show List.foldl max 0
    (List.map (fun p => calculateDistance (cexLWSN.lat:ℝ) (cexLWSN.lng:ℝ) p.lat p.lng)
      [cexP1, cexP2]) = Real.pi * 6371000
  rw [List.map_cons, List.map_cons, List.map_nil, List.foldl_cons, List.foldl_cons,
    List.foldl_nil, hd1, hd2, max_self]
  exact max_eq_right (by positivity)

/-- **C4 (counterexample).** With one participant exactly at the first
catalog building (LWSN) and one at its antipode, the returned LWSN entry has
`fairnessScore = round(π·R/2) = 10007543` while its exposed
`maxDistance - avgDistance = 20015087 - 10007543 = 10007544`: the exposed
`fairnessScore` is not the difference of the exposed rounded fields. -/
theorem fairnessScore_counterexample :
    ∃ e ∈ findOptimalLocations
        [(⟨some cexP1⟩ : LocParticipant), (⟨some cexP2⟩ : LocParticipant)]
        (⟨none⟩ : MeetingRecord),
      e.fairnessScore ≠ e.maxDistance - e.avgDistance := by
  refine ⟨scoreBuilding cexLocs cexLWSN, ?_, ?_⟩
  · rw [cex_out]
    rw [show (campusBuildings.map (scoreBuilding cexLocs)).take 5 =
        scoreBuilding cexLocs cexLWSN ::
          ((campusBuildings.tail.map (scoreBuilding cexLocs)).take 4) from rfl]
    exact List.mem_cons_self ..
  · have hf : (scoreBuilding cexLocs cexLWSN).fairnessScore =
        jsRound (Real.pi * 6371000 - Real.pi * 6371000 / 2) := by
      show jsRound (rawMaxDistance cexLocs cexLWSN -
        rawTotalDistance cexLocs cexLWSN / ((cexLocs.length : ℕ) : ℝ)) = _
      rw [cex_maxL, cex_raw cexLWSN cex_lwsn_mem]
      norm_num [cexLocs]
    have hm : (scoreBuilding cexLocs cexLWSN).maxDistance =
        jsRound (Real.pi * 6371000) := by
      show jsRound (rawMaxDistance cexLocs cexLWSN) = _
      rw [cex_maxL]
    have hav := cex_avgf cexLWSN cex_lwsn_mem
    rw [hf, hm, hav,
      show Real.pi * 6371000 - Real.pi * 6371000 / 2 = Real.pi * 6371000 / 2 from by ring,
      jsRound_pi_half, jsRound_pi_full]
    decide

/-- Witness for the amended fairness claim: the LWSN entry of the
antipodal-pair input. -/
theorem fairnessScore_amended_witness :
    (scoreBuilding cexLocs cexLWSN ∈ findOptimalLocations
      [(⟨some cexP1⟩ : LocParticipant), (⟨some cexP2⟩ : LocParticipant)]
      (⟨none⟩ : MeetingRecord)) ∧
    (0 ≤ (scoreBuilding cexLocs cexLWSN).fairnessScore ∧
      (scoreBuilding cexLocs cexLWSN).maxDistance -
          (scoreBuilding cexLocs cexLWSN).avgDistance - 1 ≤
        (scoreBuilding cexLocs cexLWSN).fairnessScore ∧
      (scoreBuilding cexLocs cexLWSN).fairnessScore ≤
        (scoreBuilding cexLocs cexLWSN).maxDistance -
          (scoreBuilding cexLocs cexLWSN).avgDistance + 1) := by
  have hmem : scoreBuilding cexLocs cexLWSN ∈ findOptimalLocations
      [(⟨some cexP1⟩ : LocParticipant), (⟨some cexP2⟩ : LocParticipant)]
      (⟨none⟩ : MeetingRecord) := by
    rw [cex_out]
    rw [show (campusBuildings.map (scoreBuilding cexLocs)).take 5 =
        scoreBuilding cexLocs cexLWSN ::
          ((campusBuildings.tail.map (scoreBuilding cexLocs)).take 4) from rfl]
    exact List.mem_cons_self ..
  exact ⟨hmem, fairnessScore_amended _ _ _ hmem⟩
